import Mathlib

/-!
# Verification of the workload-leveling and capacity-projection engine

Shallow embedding of the scheduling core of the `api-chantiers` application:
* `src/time-utils.js` — ISO-week arithmetic and the fixed 2024–2028 calendar,
* `src/planning-logic.js` — `repartitionAutomatique`, the deadline-ordered
  greedy reallocation of job effort over future weeks,
* `src/planning-display.js` — the margin / tension / badge projection
  computed by `renderGrid`.

Modelling conventions:
* A date is a day number (`Nat`): days elapsed since 2020‑01‑01 (UTC).
  All date arithmetic in the source is performed on UTC midnights, so a
  day-number model is exact for every comparison the code performs.
* The canonical week key string `"<year>-W<2-digit week>-1"` is modelled as
  the pair `(year, weekNo) : Nat × Nat`; the string encoding is injective
  on the values that occur, and the code that parses keys
  (`k.split('-W')`) recovers exactly these two components.
* JavaScript objects used as dictionaries are modelled as association
  lists in insertion order; assignment updates in place, `delete` removes,
  matching JS enumeration-order semantics for non-numeric string keys.
-/

/-- Leap year test (Gregorian). -/
def isLeap (y : Nat) : Bool := (y % 4 == 0 && y % 100 != 0) || y % 400 == 0

def daysInYear (y : Nat) : Nat := if isLeap y then 366 else 365

/-- Day number of January 1 of year `y` (for `y ≥ 2020`), with day 0 = 2020-01-01. -/
def jan1 (y : Nat) : Nat :=
  (List.range (y - 2020)).foldl (fun acc i => acc + daysInYear (2020 + i)) 0

/-- The year containing day number `dn` (fuelled linear search from 2020). -/
def yearOfAux : Nat → Nat → Nat → Nat
  | 0, y, _ => y
  | fuel + 1, y, dn => if dn < daysInYear y then y else yearOfAux fuel (y + 1) (dn - daysInYear y)

def yearOf (dn : Nat) : Nat := yearOfAux 100 2020 dn

/-- Day of week, 0 = Sunday (2020-01-01 was a Wednesday = 3); `Date.getUTCDay()`. -/
def weekday (dn : Nat) : Nat := (dn + 3) % 7

/-- Cumulative days before month `m` (1-based) in year `y`; months outside 1..12 clamp. -/
def monthsBefore (y m : Nat) : Nat :=
  (([31, if isLeap y then 29 else 28, 31, 30, 31, 30, 31, 31, 30, 31, 30, 31].take (m - 1)).foldl (· + ·) 0)

/-- Day number of the civil date `(y, m, d)` with `m` 1-based (valid dates, `y ≥ 2020`). -/
def dayNumCivil (y m d : Nat) : Nat := jan1 y + monthsBefore y m + (d - 1)

/-- `Date.prototype.getWeek` from `time-utils.js`: the ISO-8601 week number of a
date, via its Thursday (`d.setUTCDate(d.getUTCDate() + 4 - day)` then
`ceil(((d - Jan1) / 86400000 + 1) / 7)`). -/
def getWeek (dn : Nat) : Nat :=
  let day := if weekday dn == 0 then 7 else weekday dn
  let th := dn + 4 - day
  (th - jan1 (yearOf th) + 1 + 6) / 7

/-- `getISOWeeksInYear` from `time-utils.js`: ISO week number of December 31,
with a result of 1 read as 52. -/
def getISOWeeksInYear (y : Nat) : Nat :=
  let w := getWeek (jan1 (y + 1) - 1)
  if w == 1 then 52 else w

/-- `getDateOfISOWeek` from `time-utils.js`: the Monday starting ISO week `w` of
year `y` (`Jan 1 + (w-1)*7`, shifted to the Monday of its week). -/
def getDateOfISOWeek (w y : Nat) : Nat :=
  let d := jan1 y + (w - 1) * 7
  let day := if weekday d == 0 then 7 else weekday d
  if day ≤ 4 then d - (day - 1) else d + (8 - day)

/-- One entry of the generated week list (`weeks` in `time-utils.js`).
`wno`/`year` are the ISO week number and year of the `S<w>/<y>` id;
`start`/`endD` are the Monday and Sunday day numbers. -/
structure Week where
  wno : Nat
  year : Nat
  start : Nat
  endD : Nat
deriving DecidableEq, Repr, Inhabited

/-- The week list for 2024–2028 generated at load time in `time-utils.js`:
for each year the weeks `1..getISOWeeksInYear y`, each spanning `start` to
`start + 6`. -/
def weeks : List Week :=
  ((List.range 5).map (fun i =>
    let y := 2024 + i
    (List.range (getISOWeeksInYear y)).map (fun j =>
      let w := j + 1
      let s := getDateOfISOWeek w y
      Week.mk w y s (s + 6)))).flatten

/-- The canonical week-key pair `(year, weekNo)`: the components of the string
`` `${w.start.getFullYear()}-W${String(w.start.getWeek()).padStart(2,'0')}-1` ``. -/
abbrev WKey := Nat × Nat

def weekKeyOf (w : Week) : WKey := (yearOf w.start, getWeek w.start)

/-- Lookup in `weekMap` (`repartitionAutomatique` step 3): the JS object is
filled by `weeks.forEach`, so a key written twice keeps the **last** index;
this fold reproduces exactly that last-writer-wins lookup. -/
def weekIdxLast (k : WKey) : Option Nat :=
  weeks.enum.foldl (fun acc p => if weekKeyOf p.2 == k then some p.1 else acc) none

/-- First-match lookup in an association list (JS property read). -/
def alGet {κ α : Type} [DecidableEq κ] (m : List (κ × α)) (k : κ) : Option α :=
  (m.find? (fun p => p.1 = k)).map Prod.snd

/-- JS property assignment `m[k] = v`: update in place if present (keeping the
entry's position), else append. -/
def alSet {κ α : Type} [DecidableEq κ] (m : List (κ × α)) (k : κ) (v : α) : List (κ × α) :=
  if m.any (fun p => p.1 = k) then m.map (fun p => if p.1 = k then (k, v) else p)
  else m ++ [(k, v)]

/-- An availability store value: either a bare legacy number of minutes or an
object `{ minutes, updatedAt }` (the timestamp is never read by the engine). -/
inductive Avail where
  | num (minutes : Int)
  | obj (minutes : Int)
deriving DecidableEq, Repr

/-- Normalisation applied at both read sites
(`typeof stored === 'object' ? stored.minutes : stored`, with falsy → 0):
both shapes yield their minutes value. -/
def availMinutes : Avail → Int
  | .num m => m
  | .obj m => m

/-- A job record (`chantier`). `endDate` is the `"jj/mm/aaaa"` date as the
triple `(day, month, year)`. `ChargeRestante` and `tempsRestant` model the
presence/absence of those properties on the JS record. -/
structure Chantier where
  status : String
  preparateur : Option String
  prepTime : Int
  endDate : Nat × Nat × Nat
  planification : List (WKey × Int)
  ChargeRestante : Option Int := none
  tempsRestant : Option Int := none
deriving DecidableEq, Repr, Inhabited

abbrev Store := List (String × Chantier)
abbrev DataStore := List (String × List (WKey × Avail))

/-- `['Nouveau', 'Prépa. en cours'].includes(ch.status)`. -/
def isActive (s : String) : Bool := s == "Nouveau" || s == "Prépa. en cours"

/-- Sort key for `parseDateFR(a.endDate) - parseDateFR(b.endDate)`: the day
number of the civil date; on the valid dates the records hold, comparing day
numbers orders exactly as comparing the `Date` values built by `parseDateFR`. -/
def dateKey (e : Nat × Nat × Nat) : Int := (dayNumCivil e.2.2 e.2.1 e.1 : Int)

/-- `weekMap[key] && weekMap[key].idx >= currentWeekIdx`. -/
def keyIdxGeCur (cur : Nat) (k : WKey) : Bool :=
  match weekIdxLast k with
  | some i => cur ≤ i
  | none => false

/-- `weekMap[key] && weekMap[key].idx < currentWeekIdx`. -/
def keyIdxLtCur (cur : Nat) (k : WKey) : Bool :=
  match weekIdxLast k with
  | some i => i < cur
  | none => false

/-- Step 4.5 of `repartitionAutomatique`: for a non-active job, delete every
allocation entry whose key is in `weekMap` with index ≥ the current week. -/
def deprog (cur : Nat) (ch : Chantier) : Chantier :=
  if !isActive ch.status then
    { ch with planification := ch.planification.filter (fun e => !keyIdxGeCur cur e.1) }
  else ch

/-- The `pastPlanif` partition: entries with `weekMap[key].idx < currentWeekIdx`. -/
def filterPast (cur : Nat) (planif : List (WKey × Int)) : List (WKey × Int) :=
  planif.filter (fun e => keyIdxLtCur cur e.1)

def sumVals (planif : List (WKey × Int)) : Int := planif.foldl (fun s e => s + e.2) 0

/-- Step 5c: keep only the past allocation and store the floored remainder in
the (scratch) `ChargeRestante` field. -/
def resetPast (cur : Nat) (ch : Chantier) : Chantier :=
  let past := filterPast cur ch.planification
  { ch with planification := past,
            ChargeRestante := some (max 0 (ch.prepTime - sumVals past)) }

/-- `ch.planification[key] || 0`. -/
def planAt (ch : Chantier) (k : WKey) : Int := (alGet ch.planification k).getD 0

/-- `chantierList.reduce((s, c) => s + (c.planification[key] || 0), 0)`. -/
def sumAtKey (g : Store) (k : WKey) : Int := g.foldl (fun s p => s + planAt p.2 k) 0

/-- `ch.planification[key] = (ch.planification[key] || 0) + toPlan`. -/
def addAlloc (ch : Chantier) (k : WKey) (t : Int) : Chantier :=
  { ch with planification := alSet ch.planification k (planAt ch k + t) }

def modifyJob (g : Store) (j : Nat) (f : Chantier → Chantier) : Store :=
  g.set j ((g.getD j default).1, f (g.getD j default).2)

/-- One iteration of the `planWeeks.forEach` body in step 5d, for the job at
position `j` of the resource's job list; the state is the current job list
plus `remainingToPlan`. -/
def allocWeek (dispoF : WKey → Int) (j : Nat) (st : Store × Int) (k : WKey) : Store × Int :=
  if st.2 ≤ 0 then st
  else
    let dispo := dispoF k
    let already := sumAtKey st.1 k
    let free := max 0 (dispo - already)
    let toPlan := min st.2 free
    if 0 < toPlan then (modifyJob st.1 j (fun c => addAlloc c k toPlan), st.2 - toPlan)
    else st

/-- Step 5d for one job: walk all weeks from the current one to calendar end,
starting from `remainingToPlan = prepTime - sum(current allocation values)`. -/
def placeJob (dispoF : WKey → Int) (planKeys : List WKey) (g : Store) (j : Nat) : Store :=
  let rem0 := (g.getD j default).2.prepTime - sumVals (g.getD j default).2.planification
  (planKeys.foldl (allocWeek dispoF j) (g, rem0)).1

/-- Step 5d: jobs in priority order, each seeing the allocations already made
by earlier jobs of the same pass. -/
def phase2 (dispoF : WKey → Int) (planKeys : List WKey) (g : Store) : Store :=
  (List.range g.length).foldl (placeJob dispoF planKeys) g

/-- Stable insertion into a key-sorted list: `x` goes before the first element
of key ≥ its own, so elements that compared equal keep their original order. -/
def insertByKey {α : Type} (key : α → Int) (x : α) : List α → List α
  | [] => [x]
  | y :: ys => if key x ≤ key y then x :: y :: ys else y :: insertByKey key x ys

/-- Stable ascending sort by an integer key, the behaviour of the (stable) JS
`Array.prototype.sort` with comparator `(a, b) => key(a) - key(b)`. -/
def sortByKey {α : Type} (key : α → Int) : List α → List α
  | [] => []
  | x :: xs => insertByKey key x (sortByKey key xs)

/-- `dispoParSemaine` lookup: the stored value normalised to minutes, missing
entries defaulting to 0 (`dispoParSemaine[key] || 0` behaves identically). -/
def dispoOf (avail : List (WKey × Avail)) (k : WKey) : Int :=
  match alGet avail k with
  | some v => availMinutes v
  | none => 0

/-- The selection `ch.preparateur === name && ['Nouveau', 'Prépa. en cours'].includes(ch.status)`. -/
def ownedBy (name : String) (p : String × Chantier) : Bool :=
  p.2.preparateur == some name && isActive p.2.status

/-- Writing the group's final records back into the store; the JS code mutates
the store's records through the references held by `chantierList`, which with
duplicate-free ids is the same store transformation. -/
def writeBack (st : Store) (g : Store) : Store :=
  g.foldl (fun s p => alSet s p.1 p.2) st

/-- Step 5 of `repartitionAutomatique` for one resource `nd = (name, avail)`:
select and deadline-sort this resource's active jobs, reset them to their past
allocation, run the greedy weekly placement, and write the results back. -/
def processResource (cur : Nat) (planKeys : List WKey) (st : Store)
    (nd : String × List (WKey × Avail)) : Store :=
  let dispoF : WKey → Int := fun k => dispoOf nd.2 k
  let grp := st.filter (ownedBy nd.1)
  let sorted := sortByKey (fun p => dateKey p.2.endDate) grp
  if sorted.isEmpty then st
  else
    let g1 := sorted.map (fun p => (p.1, resetPast cur p.2))
    let g2 := phase2 dispoF planKeys g1
    writeBack st g2

/-- Sunday is shifted back one day (`if (nowFixed.getUTCDay() === 0) ...`). -/
def anchorFix (dn : Nat) : Nat := if weekday dn == 0 then dn - 1 else dn

/-- Step 4: index of the week whose `[start, end]` span contains the fixed
anchor (`weeks.findIndex(w => w.start <= nowFixed && w.end >= nowFixed)`),
`none` for the JS `-1`. -/
def currentWeekIdx? (today : Nat) : Option Nat :=
  weeks.findIdx? (fun w => decide (w.start ≤ anchorFix today ∧ anchorFix today ≤ w.endD))

/-- `repartitionAutomatique` of `planning-logic.js`, as a state transformer on
the job store (`data` is only read). The anchor `today` is the date-only value
the function derives from `new Date()`. When no current week exists the
function returns before touching any record, so the store comes back
unchanged. -/
def repartitionAutomatique (today : Nat) (chantiers : Store) (data : DataStore) : Store :=
  match currentWeekIdx? today with
  | none => chantiers
  | some cur =>
    let planKeys := (weeks.drop cur).map weekKeyOf
    let st1 := chantiers.map (fun p => (p.1, deprog cur p.2))
    let st2 := data.foldl (processResource cur planKeys) st1
    st2.map (fun p => (p.1, { p.2 with tempsRestant := none }))

/-- One projection record of `margesGlobales[name][weekKey]`: hour values, with
`Tdisp` and `badge` absent (`none`) until the later passes write them. -/
structure Marge where
  dispo : ℚ
  C : ℚ
  CA : ℚ
  M : ℚ
  Tdisp : Option ℚ := none
  badge : Option ℚ := none
deriving DecidableEq, Repr, Inhabited

/-- `chargeEcheance` accumulated in minutes for resource `name` at week `w`
(`renderGrid`, first pass): active jobs of the resource whose deadline falls in
this week's ISO week/year, plus — only at the current week — overdue jobs that
still hold an allocation entry at or after the current week. -/
def chargeEcheanceMin (chantiers : Store) (name : String) (cur : Nat) (w : Week) : Int :=
  let cwn := getWeek (weeks.getD cur default).start
  let cy := yearOf (weeks.getD cur default).start
  chantiers.foldl (fun acc p =>
    let ch := p.2
    if ch.preparateur == some name && isActive ch.status then
      let dateEch := dayNumCivil ch.endDate.2.2 ch.endDate.2.1 ch.endDate.1
      let echWeek := getWeek dateEch
      let echYear := yearOf dateEch
      let isCurrent := getWeek w.start == cwn && yearOf w.start == cy
      let isPastEcheance := echYear < cy || (echYear == cy && echWeek < cwn)
      let plannedThisOrLater := ch.planification.any (fun e => cy < e.1.1 || (e.1.1 == cy && cwn ≤ e.1.2))
      if (echWeek == getWeek w.start && echYear == yearOf w.start) ||
          (isCurrent && isPastEcheance && plannedThisOrLater) then acc + ch.prepTime
      else acc
    else acc) 0

/-- First `renderGrid` pass: walk the weeks from the current index carrying the
cascading margin `margePrec`, recording `{dispo, C, CA, M}` per week key in the
`margesGlobales[name]` object (duplicate keys overwrite, as in JS). -/
def pass1 (avail : List (WKey × Avail)) (chantiers : Store) (name : String) (cur : Nat) :
    List (WKey × Marge) :=
  ((weeks.drop cur).foldl (fun (acc : List (WKey × Marge) × ℚ) w =>
    let key := weekKeyOf w
    let dispoH : ℚ := (dispoOf avail key : ℚ) / 60
    let C : ℚ := (chargeEcheanceMin chantiers name cur w : ℚ) / 60
    let CA := dispoH + acc.2
    let M := CA - C
    (alSet acc.1 key ⟨dispoH, C, CA, M, none, none⟩, M)) ([], 0)).1

/-- The `keys` list of the second and third passes:
`weeks.slice(currentIndex).map(weekKey)` (it may repeat a key). -/
def projKeys (cur : Nat) : List WKey := (weeks.drop cur).map weekKeyOf

/-- Second `renderGrid` pass: for each position `idx`, `Tdisp` = the minimum of
the stored `M` values over keys `idx .. min(idx+16, length)-1` (the JS loop
starts from `Infinity`, modelled by folding from `none`), written back into the
record of `keys[idx]`. Reads of absent keys cannot occur in the pipeline. -/
def pass2 (m : List (WKey × Marge)) (keys : List WKey) : List (WKey × Marge) :=
  (List.range keys.length).foldl (fun m idx =>
    let minM : Option ℚ := ((keys.drop idx).take 16).foldl
      (fun acc k =>
        let mv := ((alGet m k).getD default).M
        match acc with
        | none => some mv
        | some a => if mv < a then some mv else some a) none
    match alGet m (keys.getD idx default), minM with
    | some mg, some mm => alSet m (keys.getD idx default) { mg with Tdisp := some mm }
    | _, _ => m) m

/-- One iteration of the badge pass over a week key: state is the map plus
`lastTdisp` (`none` = the JS `null`). When `dispo > 0` is false the badge is
written as `null` and `lastTdisp` is left as it was. -/
def badgeStep (st : List (WKey × Marge) × Option ℚ) (key : WKey) :
    List (WKey × Marge) × Option ℚ :=
  match alGet st.1 key with
  | none => st
  | some mg =>
    if 0 < mg.dispo then
      let raw := mg.Tdisp.getD default
      let badge : Option ℚ :=
        match st.2 with
        | none => some ((round (raw * 2) : ℚ) / 2)
        | some last =>
          if raw ≠ last then
            let diff := if 0 < last then raw - last else raw
            some ((round (diff * 2) : ℚ) / 2)
          else none
      (alSet st.1 key { mg with badge := badge }, some raw)
    else (alSet st.1 key { mg with badge := none }, st.2)

/-- Third `renderGrid` pass: derive the display badges. -/
def pass3 (m : List (WKey × Marge)) (keys : List WKey) : List (WKey × Marge) :=
  (keys.foldl badgeStep (m, none)).1

/-- The full `margesGlobales[name]` computation of `renderGrid` for one
resource, with the current week index as an explicit parameter. -/
def margesGlobales (avail : List (WKey × Avail)) (chantiers : Store) (name : String)
    (cur : Nat) : List (WKey × Marge) :=
  pass3 (pass2 (pass1 avail chantiers name cur) (projKeys cur)) (projKeys cur)

/-- The fields of a job record that the reallocation never rewrites
(plus `tempsRestant`, which only the final cleanup touches). -/
def frame (ch : Chantier) : String × Option String × Int × (Nat × Nat × Nat) × Option Int :=
  (ch.status, ch.preparateur, ch.prepTime, ch.endDate, ch.tempsRestant)

/-- The fields preserved by the whole run, cleanup included. -/
def frame4 (ch : Chantier) : String × Option String × Int × (Nat × Nat × Nat) :=
  (ch.status, ch.preparateur, ch.prepTime, ch.endDate)

/-- The cleanup applied to every record at the end of a run
(`delete ch.tempsRestant`). -/
def stripTr (c : Chantier) : Chantier := { c with tempsRestant := none }

/-- The week walk for one job, as a named fold. -/
def weekFold (dispoF : WKey → Int) (j : Nat) (st : Store × Int) (keys : List WKey) : Store × Int :=
  keys.foldl (allocWeek dispoF j) st

/-- The minimum of the stored `M` values over the 16-week window starting at
position `idx` of `keys` (clamped at the end), exactly the loop
`for (j = idx; j < min(idx+16, keys.length); j++)` starting from `Infinity`
(`none`), reading the map `m`. -/
def windowMinM (m : List (WKey × Marge)) (keys : List WKey) (idx : Nat) : Option ℚ :=
  ((keys.drop idx).take 16).foldl
    (fun acc k =>
      let mv := ((alGet m k).getD default).M
      match acc with
      | none => some mv
      | some a => if mv < a then some mv else some a) none

/-- The second-pass body with the window minimum named: `pass2` is exactly this
step folded over the positions (`pass2_eq_fold` below is `rfl`). -/
def pass2Step (keys : List WKey) (m : List (WKey × Marge)) (idx : Nat) :
    List (WKey × Marge) :=
  match alGet m (keys.getD idx default), windowMinM m keys idx with
  | some mg, some mm => alSet m (keys.getD idx default) { mg with Tdisp := some mm }
  | _, _ => m

/-- The badge-pass step as the specification describes it: identical to
`badgeStep` except that a week whose `dispo` is not positive still updates
`lastTdisp` to the `Tdisp` of that week. -/
def badgeStepSpec (st : List (WKey × Marge) × Option ℚ) (key : WKey) :
    List (WKey × Marge) × Option ℚ :=
  match alGet st.1 key with
  | none => st
  | some mg =>
    if 0 < mg.dispo then
      let raw := mg.Tdisp.getD default
      let badge : Option ℚ :=
        match st.2 with
        | none => some ((round (raw * 2) : ℚ) / 2)
        | some last =>
          if raw ≠ last then
            let diff := if 0 < last then raw - last else raw
            some ((round (diff * 2) : ℚ) / 2)
          else none
      (alSet st.1 key { mg with badge := badge }, some raw)
    else (alSet st.1 key { mg with badge := none }, mg.Tdisp)

/-- The badge pass with the `lastTdisp` handling described by the spec. -/
def pass3Spec (m : List (WKey × Marge)) (keys : List WKey) : List (WKey × Marge) :=
  (keys.foldl badgeStepSpec (m, none)).1

/-- Sum of the allocation entries whose week key has `weekMap` index at or
after the current week. -/
def futureSum (cur : Nat) (planif : List (WKey × Int)) : Int :=
  sumVals (planif.filter (fun e => keyIdxGeCur cur e.1))

/-- Sum of the allocation entries whose week key has `weekMap` index strictly
before the current week. -/
def pastSum (cur : Nat) (planif : List (WKey × Int)) : Int :=
  sumVals (filterPast cur planif)

/-- Total free capacity of a resource over the weeks from the current one to
calendar end: availability minus what the given job group already holds,
floored at 0, summed week by week. -/
def freeCap (cur : Nat) (avail : List (WKey × Avail)) (grp : Store) : Int :=
  ((weeks.drop cur).map weekKeyOf).foldl
    (fun s k => s + max 0 (dispoOf avail k - sumAtKey grp k)) 0

/-! ## Association-list lemmas -/

theorem alGet_nil {κ α : Type} [DecidableEq κ] (k : κ) : alGet ([] : List (κ × α)) k = none := rfl

theorem alGet_cons {κ α : Type} [DecidableEq κ] (x : κ × α) (m : List (κ × α)) (k : κ) :
    alGet (x :: m) k = if x.1 = k then some x.2 else alGet m k := by
  by_cases h : x.1 = k <;> simp [alGet, List.find?_cons, h]

theorem alGet_append {κ α : Type} [DecidableEq κ] (m₁ m₂ : List (κ × α)) (k : κ) :
    alGet (m₁ ++ m₂) k = (alGet m₁ k).or (alGet m₂ k) := by
  induction m₁ with
  | nil => simp [alGet_nil, alGet]
  | cons x m ih =>
    by_cases h : x.1 = k <;> simp [alGet_cons, h, ih]

/-- `alSet` when the key is absent appends. -/
theorem alSet_of_not_mem {κ α : Type} [DecidableEq κ] (m : List (κ × α)) (k : κ) (v : α)
    (h : k ∉ m.map Prod.fst) : alSet m k v = m ++ [(k, v)] := by
  have : m.any (fun p => p.1 = k) = false := by
    simp only [List.any_eq_false, decide_eq_true_eq]
    intro p hp hpk
    exact h (hpk ▸ List.mem_map_of_mem Prod.fst hp)
  simp [alSet, this]

/-- `alSet` when the key is present rewrites matching entries in place. -/
theorem alSet_of_mem {κ α : Type} [DecidableEq κ] (m : List (κ × α)) (k : κ) (v : α)
    (h : k ∈ m.map Prod.fst) : alSet m k v = m.map (fun p => if p.1 = k then (k, v) else p) := by
  have : m.any (fun p => p.1 = k) = true := by
    simp only [List.any_eq_true, decide_eq_true_eq]
    obtain ⟨p, hp, hpk⟩ := List.mem_map.mp h
    exact ⟨p, hp, hpk⟩
  simp [alSet, this]

/-- Unfolding `alSet` one entry at a time. -/
theorem alSet_cons {κ α : Type} [DecidableEq κ] (x : κ × α) (m : List (κ × α)) (k : κ) (v : α) :
    alSet (x :: m) k v =
      if x.1 = k then (k, v) :: m.map (fun p => if p.1 = k then (k, v) else p)
      else x :: alSet m k v := by
  by_cases hx : x.1 = k
  · have : (x :: m).any (fun p => p.1 = k) = true := by simp [hx]
    simp [alSet, this, hx]
  · by_cases hm : m.any (fun p => p.1 = k)
    · have : (x :: m).any (fun p => p.1 = k) = true := by simp [List.any_cons, hm]
      simp [alSet, this, hx, hm]
    · have hm' : m.any (fun p => p.1 = k) = false := by rwa [Bool.not_eq_true] at hm
      have : (x :: m).any (fun p => p.1 = k) = false := by
        simp only [List.any_cons, Bool.or_eq_false_iff]
        exact ⟨by simp [hx], hm'⟩
      simp only [alSet, this, hm', Bool.false_eq_true, if_false, if_neg hx]
      simp

theorem alGet_mapSetk_ne {κ α : Type} [DecidableEq κ] (m : List (κ × α)) (k k' : κ) (v : α)
    (h : k' ≠ k) :
    alGet (m.map (fun p => if p.1 = k then (k, v) else p)) k' = alGet m k' := by
  induction m with
  | nil => rfl
  | cons x m ih =>
    by_cases hx : x.1 = k
    · simp [alGet_cons, hx, Ne.symm h, ih]
    · simp [alGet_cons, hx, ih]

theorem alGet_alSet_eq {κ α : Type} [DecidableEq κ] (m : List (κ × α)) (k : κ) (v : α) :
    alGet (alSet m k v) k = some v := by
  induction m with
  | nil => simp [alSet, alGet_cons, alGet_nil]
  | cons x m ih =>
    rw [alSet_cons]
    by_cases hx : x.1 = k
    · simp [hx, alGet_cons]
    · simp [hx, alGet_cons, ih]

theorem alGet_alSet_ne {κ α : Type} [DecidableEq κ] (m : List (κ × α)) (k k' : κ) (v : α)
    (h : k' ≠ k) : alGet (alSet m k v) k' = alGet m k' := by
  induction m with
  | nil => simp [alSet, alGet_cons, alGet_nil, Ne.symm h]
  | cons x m ih =>
    rw [alSet_cons]
    by_cases hx : x.1 = k
    · rw [if_pos hx, alGet_cons, if_neg (by simpa using (Ne.symm h)), alGet_mapSetk_ne m k k' v h,
        alGet_cons, hx, if_neg (by simpa using (Ne.symm h))]
    · simp [hx, alGet_cons, ih]

/-- Reading through a key-predicate filter: present iff the key passes. -/
theorem alGet_filter_keyPred {α : Type} [DecidableEq WKey] (q : WKey → Bool)
    (m : List (WKey × α)) (k : WKey) :
    alGet (m.filter (fun e => q e.1)) k = if q k then alGet m k else none := by
  induction m with
  | nil => simp [alGet_nil]
  | cons x m ih =>
    by_cases hx : x.1 = k
    · subst hx
      by_cases hq : q x.1
      · simp [List.filter_cons, hq, alGet_cons]
      · simp only [List.filter_cons]
        rw [if_neg (by simpa using hq)]
        simp only [ih]
        simp [hq]
    · by_cases hq : q x.1
      · simp [List.filter_cons, hq, alGet_cons, hx, ih]
      · simp only [List.filter_cons]
        rw [if_neg (by simpa using hq)]
        simp [ih, alGet_cons, hx]

theorem alSet_map_fst_of_mem {κ α : Type} [DecidableEq κ] (m : List (κ × α)) (k : κ) (v : α)
    (h : k ∈ m.map Prod.fst) : (alSet m k v).map Prod.fst = m.map Prod.fst := by
  rw [alSet_of_mem m k v h, List.map_map]
  apply List.map_congr_left
  intro p _
  by_cases hp : p.1 = k <;> simp [hp]

theorem alSet_length_of_mem {κ α : Type} [DecidableEq κ] (m : List (κ × α)) (k : κ) (v : α)
    (h : k ∈ m.map Prod.fst) : (alSet m k v).length = m.length := by
  rw [alSet_of_mem m k v h, List.length_map]

/-- Positional effect of `alSet` when the key is already present. -/
theorem alSet_getD_of_mem {κ α : Type} [DecidableEq κ] [Inhabited κ] [Inhabited α]
    (m : List (κ × α)) (k : κ) (v : α) (hmem : k ∈ m.map Prod.fst) (i : Nat) (hi : i < m.length) :
    (alSet m k v).getD i default =
      if (m.getD i default).1 = k then (k, v) else m.getD i default := by
  rw [alSet_of_mem m k v hmem]
  rw [List.getD_eq_getElem _ _ (by simpa using hi), List.getD_eq_getElem _ _ hi,
    List.getElem_map]

/-! ## The last-writer-wins `weekMap` index -/

/-- Generalised fold lemma: if the accumulator already holds an index ≥ `tgt`,
or some week at enum position ≥ `tgt` matches the key, the fold ends on an
index ≥ `tgt` (entries are visited in increasing index order, so a later
overwrite can only increase the result). -/
theorem weekfold_ge (k : WKey) (tgt : Nat) :
    ∀ (l : List Week) (n : Nat) (acc : Option Nat),
      (∀ m, acc = some m → m < n) →
      ((∃ m, acc = some m ∧ tgt ≤ m) ∨
        ∃ i w, l[i]? = some w ∧ weekKeyOf w = k ∧ tgt ≤ n + i) →
      ∃ j, (l.enumFrom n).foldl
          (fun acc p => if weekKeyOf p.2 == k then some p.1 else acc) acc = some j ∧ tgt ≤ j := by
  intro l
  induction l with
  | nil =>
    intro n acc _ hdisj
    rcases hdisj with ⟨m, hm, htgt⟩ | ⟨i, w, hw, _, _⟩
    · exact ⟨m, by simpa using hm, htgt⟩
    · simp at hw
  | cons a l ih =>
    intro n acc hacc hdisj
    rw [List.enumFrom_cons, List.foldl_cons]
    set acc' := if weekKeyOf a == k then some n else acc with haccdef
    have hacc' : ∀ m, acc' = some m → m < n + 1 := by
      intro m hm
      rw [haccdef] at hm
      by_cases hk : weekKeyOf a == k
      · rw [if_pos hk] at hm
        injection hm with hnm
        omega
      · rw [if_neg hk] at hm
        exact Nat.lt_succ_of_lt (hacc m hm)
    apply ih (n + 1) acc' hacc'
    rcases hdisj with ⟨m, hm, htgt⟩ | ⟨i, w, hw, hkey, htgt⟩
    · by_cases hk : weekKeyOf a == k
      · left
        refine ⟨n, by rw [haccdef, if_pos hk], ?_⟩
        have := hacc m hm
        omega
      · exact Or.inl ⟨m, by rw [haccdef, if_neg hk]; exact hm, htgt⟩
    · cases i with
      | zero =>
        left
        have haw : a = w := by simpa using hw
        have ha : weekKeyOf a = k := haw ▸ hkey
        refine ⟨n, by rw [haccdef, if_pos (by simp [ha])], by omega⟩
      | succ i =>
        right
        exact ⟨i, w, by simpa using hw, hkey, by omega⟩

/-- A week at index `i` guarantees `weekMap` holds its key with index ≥ `i`. -/
theorem weekIdxLast_ge {k : WKey} (i : Nat) (w : Week) (hw : weeks[i]? = some w)
    (hk : weekKeyOf w = k) : ∃ j, weekIdxLast k = some j ∧ i ≤ j := by
  have h := weekfold_ge k i weeks 0 none (by simp) (Or.inr ⟨i, w, hw, hk, by omega⟩)
  rw [weekIdxLast, List.enum_eq_enumFrom]
  exact h

/-- Every key of `planWeeks` (weeks from the current index on) has `weekMap`
index at or after the current index. -/
theorem planKeys_future (cur : Nat) (k : WKey) (hk : k ∈ (weeks.drop cur).map weekKeyOf) :
    keyIdxGeCur cur k = true := by
  obtain ⟨w, hw, hkey⟩ := List.mem_map.mp hk
  obtain ⟨i, hwi⟩ := List.mem_iff_getElem?.mp hw
  rw [List.getElem?_drop] at hwi
  obtain ⟨j, hj, hij⟩ := weekIdxLast_ge (cur + i) w hwi hkey
  rw [keyIdxGeCur, hj]
  simp
  omega

theorem keyIdxLt_false_of_ge {cur : Nat} {k : WKey} (h : keyIdxGeCur cur k = true) :
    keyIdxLtCur cur k = false := by
  rw [keyIdxGeCur] at h
  rw [keyIdxLtCur]
  cases hw : weekIdxLast k with
  | none => simp
  | some j =>
    rw [hw] at h
    simp at h ⊢
    omega

/-! ## Claim C5: atomic abort when the anchor is outside the calendar -/

theorem currentWeekIdx?_of_no_week (today : Nat)
    (h : ∀ w ∈ weeks, ¬(w.start ≤ anchorFix today ∧ anchorFix today ≤ w.endD)) :
    currentWeekIdx? today = none := by
  rw [currentWeekIdx?, List.findIdx?_eq_none_iff]
  intro w hw
  simpa using h w hw

/-- C5: if the anchor date (date-only, Sunday shifted back one day) lies in no
calendar week's `[start, end]` span, `repartitionAutomatique` takes the early
`return` before any mutation, so every job record and allocation map — and the
untouched availability store — are exactly as before the call. -/
theorem C5_noCurrentWeek_aborts (today : Nat) (chantiers : Store) (data : DataStore)
    (h : ∀ w ∈ weeks, ¬(w.start ≤ anchorFix today ∧ anchorFix today ≤ w.endD)) :
    repartitionAutomatique today chantiers data = chantiers := by
  rw [repartitionAutomatique, currentWeekIdx?_of_no_week today h]

/-! ## Structural lemmas about the reallocation pass -/

theorem frame_addAlloc (ch : Chantier) (k : WKey) (t : Int) : frame (addAlloc ch k t) = frame ch := rfl

theorem frame_resetPast (cur : Nat) (ch : Chantier) : frame (resetPast cur ch) = frame ch := rfl

theorem modifyJob_length (g : Store) (j : Nat) (f : Chantier → Chantier) :
    (modifyJob g j f).length = g.length := by
  simp [modifyJob]

theorem modifyJob_getD_ne (g : Store) (j : Nat) (f : Chantier → Chantier) (i : Nat) (h : i ≠ j) :
    (modifyJob g j f).getD i default = g.getD i default := by
  rw [modifyJob]
  by_cases hi : i < g.length
  · rw [List.getD_eq_getElem _ _ (by simpa using hi), List.getD_eq_getElem _ _ hi]
    exact List.getElem_set_ne (Ne.symm h) _
  · rw [List.getD_eq_default _ _ (by simpa using Nat.le_of_not_lt hi),
      List.getD_eq_default _ _ (Nat.le_of_not_lt hi)]

theorem modifyJob_getD_eq (g : Store) (j : Nat) (f : Chantier → Chantier) (hj : j < g.length) :
    (modifyJob g j f).getD j default = ((g.getD j default).1, f (g.getD j default).2) := by
  rw [modifyJob, List.getD_eq_getElem _ _ (by simpa using hj)]
  rw [List.getElem_set_self]

theorem modifyJob_map_fst (g : Store) (j : Nat) (f : Chantier → Chantier) :
    (modifyJob g j f).map Prod.fst = g.map Prod.fst := by
  rw [modifyJob, List.map_set]
  by_cases hj : j < g.length
  · apply List.ext_getElem (by simp)
    intro i h1 h2
    by_cases hij : j = i
    · subst hij
      rw [List.getElem_set_self]
      simp [List.getD_eq_getElem _ _ hj, List.getElem?_eq_getElem hj]
    · rw [List.getElem_set_ne hij]
  · rw [List.set_eq_of_length_le (by simpa using Nat.le_of_not_lt hj)]

/-- One allocation step either leaves the state alone or adds `t > 0` minutes
of job `j`'s remainder at week `k`. -/
theorem allocWeek_cases (dispoF : WKey → Int) (j : Nat) (st : Store × Int) (k : WKey) :
    allocWeek dispoF j st k = st ∨
    ∃ t, 0 < t ∧ t ≤ st.2 ∧ t = min st.2 (max 0 (dispoF k - sumAtKey st.1 k)) ∧
      allocWeek dispoF j st k = (modifyJob st.1 j (fun c => addAlloc c k t), st.2 - t) := by
  rw [allocWeek]
  by_cases h0 : st.2 ≤ 0
  · left; rw [if_pos h0]
  · rw [if_neg h0]
    by_cases ht : 0 < min st.2 (max 0 (dispoF k - sumAtKey st.1 k))
    · right
      refine ⟨_, ht, ?_, rfl, by rw [if_pos ht]⟩
      exact min_le_left _ _
    · left; rw [if_neg ht]

theorem allocWeek_fst_length (dispoF : WKey → Int) (j : Nat) (st : Store × Int) (k : WKey) :
    (allocWeek dispoF j st k).1.length = st.1.length := by
  rcases allocWeek_cases dispoF j st k with h | ⟨t, _, _, _, h⟩ <;>
    simp [h, modifyJob_length]

theorem allocWeek_map_fst (dispoF : WKey → Int) (j : Nat) (st : Store × Int) (k : WKey) :
    (allocWeek dispoF j st k).1.map Prod.fst = st.1.map Prod.fst := by
  rcases allocWeek_cases dispoF j st k with h | ⟨t, _, _, _, h⟩ <;>
    simp [h, modifyJob_map_fst]

theorem allocWeek_frame (dispoF : WKey → Int) (j : Nat) (st : Store × Int) (k : WKey) (i : Nat) :
    frame ((allocWeek dispoF j st k).1.getD i default).2 = frame ((st.1.getD i default).2) ∧
    ((allocWeek dispoF j st k).1.getD i default).1 = ((st.1.getD i default)).1 := by
  rcases allocWeek_cases dispoF j st k with h | ⟨t, _, _, _, h⟩
  · rw [h]; exact ⟨rfl, rfl⟩
  · rw [h]
    dsimp only
    by_cases hij : i = j
    · subst hij
      by_cases hi : i < st.1.length
      · rw [modifyJob_getD_eq _ _ _ hi]
        exact ⟨frame_addAlloc _ _ _, rfl⟩
      · rw [modifyJob, List.set_eq_of_length_le (by simpa using Nat.le_of_not_lt hi)]
        exact ⟨rfl, rfl⟩
    · rw [modifyJob_getD_ne _ _ _ _ hij]
      exact ⟨rfl, rfl⟩

theorem allocWeek_getD_ne (dispoF : WKey → Int) (j : Nat) (st : Store × Int) (k : WKey) (i : Nat)
    (h : i ≠ j) : (allocWeek dispoF j st k).1.getD i default = st.1.getD i default := by
  rcases allocWeek_cases dispoF j st k with heq | ⟨t, _, _, _, heq⟩
  · rw [heq]
  · rw [heq]; dsimp only; exact modifyJob_getD_ne _ _ _ _ h

theorem weekFold_fst_length (dispoF : WKey → Int) (j : Nat) (keys : List WKey) :
    ∀ st : Store × Int, (weekFold dispoF j st keys).1.length = st.1.length := by
  induction keys with
  | nil => intro st; rfl
  | cons k keys ih =>
    intro st
    rw [weekFold, List.foldl_cons, ← weekFold]
    rw [ih, allocWeek_fst_length]

theorem weekFold_map_fst (dispoF : WKey → Int) (j : Nat) (keys : List WKey) :
    ∀ st : Store × Int, (weekFold dispoF j st keys).1.map Prod.fst = st.1.map Prod.fst := by
  induction keys with
  | nil => intro st; rfl
  | cons k keys ih =>
    intro st
    rw [weekFold, List.foldl_cons, ← weekFold, ih, allocWeek_map_fst]

theorem weekFold_frame (dispoF : WKey → Int) (j : Nat) (keys : List WKey) (i : Nat) :
    ∀ st : Store × Int,
      frame ((weekFold dispoF j st keys).1.getD i default).2 = frame ((st.1.getD i default).2) ∧
      ((weekFold dispoF j st keys).1.getD i default).1 = (st.1.getD i default).1 := by
  induction keys with
  | nil => intro st; exact ⟨rfl, rfl⟩
  | cons k keys ih =>
    intro st
    rw [weekFold, List.foldl_cons, ← weekFold]
    obtain ⟨h1, h2⟩ := ih (allocWeek dispoF j st k)
    obtain ⟨h3, h4⟩ := allocWeek_frame dispoF j st k i
    exact ⟨h1.trans h3, h2.trans h4⟩

theorem weekFold_getD_ne (dispoF : WKey → Int) (j : Nat) (keys : List WKey) (i : Nat) (h : i ≠ j) :
    ∀ st : Store × Int, (weekFold dispoF j st keys).1.getD i default = st.1.getD i default := by
  induction keys with
  | nil => intro st; rfl
  | cons k keys ih =>
    intro st
    rw [weekFold, List.foldl_cons, ← weekFold, ih, allocWeek_getD_ne _ _ _ _ _ h]

theorem placeJob_eq_weekFold (dispoF : WKey → Int) (planKeys : List WKey) (g : Store) (j : Nat) :
    placeJob dispoF planKeys g j =
      (weekFold dispoF j
        (g, (g.getD j default).2.prepTime - sumVals (g.getD j default).2.planification)
        planKeys).1 := rfl

theorem phase2_map_fst (dispoF : WKey → Int) (planKeys : List WKey) (g : Store) :
    (phase2 dispoF planKeys g).map Prod.fst = g.map Prod.fst := by
  rw [phase2]
  generalize List.range g.length = idxs
  induction idxs generalizing g with
  | nil => rfl
  | cons j idxs ih =>
    rw [List.foldl_cons]
    rw [ih, placeJob_eq_weekFold, weekFold_map_fst]

theorem phase2_length (dispoF : WKey → Int) (planKeys : List WKey) (g : Store) :
    (phase2 dispoF planKeys g).length = g.length := by
  have := congrArg List.length (phase2_map_fst dispoF planKeys g)
  simpa using this

theorem phase2_frame (dispoF : WKey → Int) (planKeys : List WKey) (g : Store) (i : Nat) :
    frame ((phase2 dispoF planKeys g).getD i default).2 = frame ((g.getD i default).2) ∧
    ((phase2 dispoF planKeys g).getD i default).1 = (g.getD i default).1 := by
  rw [phase2]
  generalize List.range g.length = idxs
  induction idxs generalizing g with
  | nil => exact ⟨rfl, rfl⟩
  | cons j idxs ih =>
    rw [List.foldl_cons]
    obtain ⟨h1, h2⟩ := ih (placeJob dispoF planKeys g j)
    rw [placeJob_eq_weekFold] at h1 h2 ⊢
    obtain ⟨h3, h4⟩ := weekFold_frame dispoF j planKeys i _
    exact ⟨h1.trans h3, h2.trans h4⟩

theorem insertByKey_perm {α : Type} (key : α → Int) (x : α) (l : List α) :
    (insertByKey key x l).Perm (x :: l) := by
  induction l with
  | nil => simp [insertByKey]
  | cons y ys ih =>
    rw [insertByKey]
    by_cases h : key x ≤ key y
    · rw [if_pos h]
    · rw [if_neg h]
      exact (ih.cons y).trans (List.Perm.swap x y ys)

theorem sortByKey_perm {α : Type} (key : α → Int) (l : List α) :
    (sortByKey key l).Perm l := by
  induction l with
  | nil => exact List.Perm.refl _
  | cons x xs ih =>
    rw [sortByKey]
    exact (insertByKey_perm key x _).trans (ih.cons x)

theorem entry_unique {κ α : Type} [DecidableEq κ] {m : List (κ × α)}
    (hnd : (m.map Prod.fst).Nodup) {p q : κ × α} (hp : p ∈ m) (hq : q ∈ m) (hpq : p.1 = q.1) :
    p = q := by
  induction m with
  | nil => cases hp
  | cons x m ih =>
    rw [List.map_cons, List.nodup_cons] at hnd
    rcases List.mem_cons.mp hp with rfl | hp'
    · rcases List.mem_cons.mp hq with rfl | hq'
      · rfl
      · exact absurd (hpq ▸ List.mem_map_of_mem Prod.fst hq') hnd.1
    · rcases List.mem_cons.mp hq with rfl | hq'
      · exact absurd (hpq ▸ List.mem_map_of_mem Prod.fst hp') hnd.1
      · exact ih hnd.2 hp' hq'

theorem writeBack_map_fst (g : Store) :
    ∀ st : Store, (∀ p ∈ g, p.1 ∈ st.map Prod.fst) →
      (writeBack st g).map Prod.fst = st.map Prod.fst := by
  induction g with
  | nil => intro st _; rfl
  | cons p g ih =>
    intro st hsub
    have hmem : p.1 ∈ st.map Prod.fst := hsub p (List.mem_cons_self p g)
    have hfst : (alSet st p.1 p.2).map Prod.fst = st.map Prod.fst :=
      alSet_map_fst_of_mem st p.1 p.2 hmem
    have hsub' : ∀ q ∈ g, q.1 ∈ (alSet st p.1 p.2).map Prod.fst := by
      intro q hq
      rw [hfst]
      exact hsub q (List.mem_cons_of_mem p hq)
    rw [writeBack, List.foldl_cons, ← writeBack, ih (alSet st p.1 p.2) hsub', hfst]

theorem writeBack_length (g : Store) (st : Store) (hsub : ∀ p ∈ g, p.1 ∈ st.map Prod.fst) :
    (writeBack st g).length = st.length := by
  have := congrArg List.length (writeBack_map_fst g st hsub)
  simpa using this

/-- The write-back assigns each group id its final record and touches nothing
else (store ids must be duplicate-free, as JS object keys are). -/
theorem writeBack_getD (g : Store) :
    ∀ st : Store, (g.map Prod.fst).Nodup → (∀ p ∈ g, p.1 ∈ st.map Prod.fst) →
      ∀ i, i < st.length →
      (writeBack st g).getD i default =
        (g.find? (fun p => p.1 = (st.getD i default).1)).getD (st.getD i default) := by
  induction g with
  | nil => intro st _ _ i _; rfl
  | cons p g ih =>
    intro st hnd hsub i hi
    have hmem : p.1 ∈ st.map Prod.fst := hsub p (List.mem_cons_self p g)
    have hfst : (alSet st p.1 p.2).map Prod.fst = st.map Prod.fst :=
      alSet_map_fst_of_mem st p.1 p.2 hmem
    have hlen : (alSet st p.1 p.2).length = st.length := alSet_length_of_mem st p.1 p.2 hmem
    have hsub' : ∀ q ∈ g, q.1 ∈ (alSet st p.1 p.2).map Prod.fst := by
      intro q hq
      rw [hfst]
      exact hsub q (List.mem_cons_of_mem p hq)
    rw [List.map_cons, List.nodup_cons] at hnd
    have hpos := alSet_getD_of_mem st p.1 p.2 hmem i hi
    rw [writeBack, List.foldl_cons, ← writeBack,
      ih (alSet st p.1 p.2) hnd.2 hsub' i (by omega)]
    by_cases hcase : (st.getD i default).1 = p.1
    · rw [hpos, if_pos hcase]
      have hfind : g.find? (fun q => q.1 = ((p.1, p.2) : String × Chantier).1) = none := by
        rw [List.find?_eq_none]
        intro q hq
        simp only [decide_eq_true_eq]
        intro hq1
        exact hnd.1 (hq1 ▸ List.mem_map_of_mem Prod.fst hq)
      rw [hfind]
      have : (p :: g).find? (fun q => q.1 = (st.getD i default).1) = some p :=
        List.find?_cons_of_pos _ (by simp only [decide_eq_true_eq]; exact hcase.symm)
      rw [this]
      rfl
    · rw [hpos, if_neg hcase]
      have : (p :: g).find? (fun q => q.1 = (st.getD i default).1) =
          g.find? (fun q => q.1 = (st.getD i default).1) :=
        List.find?_cons_of_neg _ (by simp only [decide_eq_true_eq]; exact fun h => hcase h.symm)
      rw [this]

theorem getD_map_pair (f : Chantier → Chantier) (l : Store) (i : Nat) (hi : i < l.length) :
    (l.map (fun p => (p.1, f p.2))).getD i default =
      ((l.getD i default).1, f (l.getD i default).2) := by
  rw [List.getD_eq_getElem _ _ (by simpa using hi), List.getD_eq_getElem _ _ hi,
    List.getElem_map]

theorem getD_mem (l : Store) (i : Nat) (hi : i < l.length) : l.getD i default ∈ l := by
  rw [List.getD_eq_getElem _ _ hi]
  exact List.getElem_mem hi

/-- Characterisation of one `processResource` pass: ids are preserved, every
record keeps its frame fields, and records not selected (wrong owner or
inactive) are untouched. -/
theorem processResource_char (cur : Nat) (planKeys : List WKey) (st : Store)
    (nd : String × List (WKey × Avail)) (hnd : (st.map Prod.fst).Nodup) :
    (processResource cur planKeys st nd).map Prod.fst = st.map Prod.fst ∧
    ∀ i, i < st.length →
      frame ((processResource cur planKeys st nd).getD i default).2 =
        frame ((st.getD i default).2) ∧
      (ownedBy nd.1 (st.getD i default) = false →
        (processResource cur planKeys st nd).getD i default = st.getD i default) := by
  rw [processResource]
  by_cases hemp : (sortByKey (fun p => dateKey p.2.endDate) (st.filter (ownedBy nd.1))).isEmpty
  · rw [if_pos hemp]
    exact ⟨rfl, fun i _ => ⟨rfl, fun _ => rfl⟩⟩
  · rw [if_neg hemp]
    set grp := st.filter (ownedBy nd.1) with hgrp
    set sorted := sortByKey (fun p => dateKey p.2.endDate) grp with hsorted
    set g1 := sorted.map (fun p => (p.1, resetPast cur p.2)) with hg1
    set g2 := phase2 (fun k => dispoOf nd.2 k) planKeys g1 with hg2
    have hperm : sorted.Perm grp := sortByKey_perm _ _
    have hg1fst : g1.map Prod.fst = sorted.map Prod.fst := by
      rw [hg1, List.map_map]; rfl
    have hg2fst : g2.map Prod.fst = sorted.map Prod.fst := by
      rw [hg2, phase2_map_fst, hg1fst]
    have hsortnd : (sorted.map Prod.fst).Nodup := by
      refine (hperm.map Prod.fst).nodup_iff.mpr ?_
      exact ((List.filter_sublist st).map Prod.fst).nodup hnd
    have hg2nd : (g2.map Prod.fst).Nodup := hg2fst ▸ hsortnd
    have hsub : ∀ p ∈ g2, p.1 ∈ st.map Prod.fst := by
      intro p hp
      have : p.1 ∈ g2.map Prod.fst := List.mem_map_of_mem Prod.fst hp
      rw [hg2fst] at this
      have : p.1 ∈ grp.map Prod.fst := (hperm.map Prod.fst).mem_iff.mp this
      exact ((List.filter_sublist st).map Prod.fst).mem this
    -- every group output record has the frame of, and the id of, a store record
    have hg2rec : ∀ q ∈ g2, ∃ r ∈ st, ownedBy nd.1 r = true ∧ q.1 = r.1 ∧ frame q.2 = frame r.2 := by
      intro q hq
      obtain ⟨j, hj, hjq⟩ := List.mem_iff_getElem.mp hq
      have hjlen : j < g1.length := by
        have hp2 := phase2_length (fun k => dispoOf nd.2 k) planKeys g1
        rw [hg2] at hj
        omega
      have hjs : j < sorted.length := by
        rw [hg1] at hjlen
        simpa using hjlen
      obtain ⟨hfr, hfst⟩ := phase2_frame (fun k => dispoOf nd.2 k) planKeys g1 j
      rw [← hg2] at hfr hfst
      have hg1j : g1.getD j default =
          ((sorted.getD j default).1, resetPast cur (sorted.getD j default).2) :=
        getD_map_pair _ sorted j hjs
      have hq_eq : q = g2.getD j default := by
        rw [List.getD_eq_getElem _ _ hj, hjq]
      have hmem_s : sorted.getD j default ∈ sorted := getD_mem sorted j hjs
      have hmem_g : sorted.getD j default ∈ grp := hperm.mem_iff.mp hmem_s
      rw [hgrp, List.mem_filter] at hmem_g
      refine ⟨sorted.getD j default, hmem_g.1, hmem_g.2, ?_, ?_⟩
      · rw [hq_eq, hfst, hg1j]
      · rw [hq_eq, hfr, hg1j]
        exact frame_resetPast cur _
    constructor
    · exact writeBack_map_fst g2 st hsub
    · intro i hi
      rw [writeBack_getD g2 st hg2nd hsub i hi]
      cases hfind : g2.find? (fun p => p.1 = (st.getD i default).1) with
      | none => exact ⟨rfl, fun _ => rfl⟩
      | some q =>
        have hqmem : q ∈ g2 := List.mem_of_find?_eq_some hfind
        have hq1 : q.1 = (st.getD i default).1 := by
          have := List.find?_some hfind
          simpa using this
        obtain ⟨r, hr, hrown, hqr, hqfr⟩ := hg2rec q hqmem
        have hri : r = st.getD i default :=
          entry_unique hnd hr (getD_mem st i hi) (by rw [← hqr, hq1])
        constructor
        · simp only [Option.getD_some]
          rw [hqfr, hri]
        · intro hfalse
          rw [hri] at hrown
          rw [hrown] at hfalse
          cases hfalse

set_option maxRecDepth 10000 in
theorem C5_witness :
    (∀ w ∈ weeks, ¬(w.start ≤ anchorFix 100000 ∧ anchorFix 100000 ≤ w.endD)) ∧
    repartitionAutomatique 100000
      [("J1", { status := "Nouveau", preparateur := some "A", prepTime := 5000,
                endDate := (8, 12, 2028), planification := [((2028, 49), 60)] })] [] =
      [("J1", { status := "Nouveau", preparateur := some "A", prepTime := 5000,
                endDate := (8, 12, 2028), planification := [((2028, 49), 60)] })] :=
  ⟨by decide, C5_noCurrentWeek_aborts _ _ _ (by decide)⟩

theorem processResource_length (cur : Nat) (planKeys : List WKey) (st : Store)
    (nd : String × List (WKey × Avail)) (hnd : (st.map Prod.fst).Nodup) :
    (processResource cur planKeys st nd).length = st.length := by
  have := congrArg List.length (processResource_char cur planKeys st nd hnd).1
  simpa using this

/-- Characterisation of the whole per-resource fold: ids and frames preserved;
a record owned by none of the processed resources is untouched. -/
theorem foldPR_char (cur : Nat) (planKeys : List WKey) (data : DataStore) :
    ∀ st : Store, (st.map Prod.fst).Nodup →
      (data.foldl (processResource cur planKeys) st).map Prod.fst = st.map Prod.fst ∧
      ∀ i, i < st.length →
        frame ((data.foldl (processResource cur planKeys) st).getD i default).2 =
          frame ((st.getD i default).2) ∧
        ((∀ nd ∈ data, ownedBy nd.1 (st.getD i default) = false) →
          (data.foldl (processResource cur planKeys) st).getD i default = st.getD i default) := by
  induction data with
  | nil => intro st _; exact ⟨rfl, fun i _ => ⟨rfl, fun _ => rfl⟩⟩
  | cons nd data ih =>
    intro st hnd
    rw [List.foldl_cons]
    obtain ⟨hfst1, hrec1⟩ := processResource_char cur planKeys st nd hnd
    have hnd1 : ((processResource cur planKeys st nd).map Prod.fst).Nodup := by
      rw [hfst1]; exact hnd
    obtain ⟨hfst2, hrec2⟩ := ih (processResource cur planKeys st nd) hnd1
    have hlen1 : (processResource cur planKeys st nd).length = st.length :=
      processResource_length cur planKeys st nd hnd
    refine ⟨hfst2.trans hfst1, ?_⟩
    intro i hi
    obtain ⟨hfr2, hun2⟩ := hrec2 i (by omega)
    obtain ⟨hfr1, hun1⟩ := hrec1 i hi
    refine ⟨hfr2.trans hfr1, ?_⟩
    intro hall
    have h1 : (processResource cur planKeys st nd).getD i default = st.getD i default :=
      hun1 (hall nd (List.mem_cons_self nd data))
    rw [hun2, h1]
    rw [h1]
    intro nd' hnd'
    exact hall nd' (List.mem_cons_of_mem nd hnd')

theorem frame_deprog (cur : Nat) (ch : Chantier) : frame (deprog cur ch) = frame ch := by
  rw [deprog]
  by_cases h : !isActive ch.status
  · rw [if_pos h]; rfl
  · rw [if_neg h]

theorem status_eq_of_frame {a b : Chantier} (h : frame a = frame b) : a.status = b.status := by
  rw [frame, frame] at h
  exact congrArg (fun q => q.1) h

theorem ownedBy_congr {n : String} {a b : String × Chantier} (h1 : frame a.2 = frame b.2) :
    ownedBy n a = ownedBy n b := by
  rw [ownedBy, ownedBy]
  rw [frame, frame] at h1
  have hs : a.2.status = b.2.status := congrArg (fun q => q.1) h1
  have hp : a.2.preparateur = b.2.preparateur := congrArg (fun q => q.2.1) h1
  rw [hs, hp]

/-- Full-run characterisation: ids preserved, the four stable fields preserved,
`tempsRestant` removed everywhere, inactive jobs exactly deprogrammed, and jobs
owned by no resource of the availability store keep their allocation maps. -/
theorem repartition_char (today : Nat) (ch : Store) (data : DataStore) (cur : Nat)
    (hcur : currentWeekIdx? today = some cur) (hnd : (ch.map Prod.fst).Nodup) :
    (repartitionAutomatique today ch data).map Prod.fst = ch.map Prod.fst ∧
    ∀ i, i < ch.length →
      frame4 ((repartitionAutomatique today ch data).getD i default).2 =
        frame4 ((ch.getD i default).2) ∧
      ((repartitionAutomatique today ch data).getD i default).1 = (ch.getD i default).1 ∧
      ((repartitionAutomatique today ch data).getD i default).2.tempsRestant = none ∧
      (isActive (ch.getD i default).2.status = false →
        ((repartitionAutomatique today ch data).getD i default).2.planification =
          (ch.getD i default).2.planification.filter (fun e => !keyIdxGeCur cur e.1)) := by
  rw [repartitionAutomatique, hcur]
  set planKeys := (weeks.drop cur).map weekKeyOf with hpk
  set st1 := ch.map (fun p => (p.1, deprog cur p.2)) with hst1
  have hst1fst : st1.map Prod.fst = ch.map Prod.fst := by
    rw [hst1, List.map_map]; rfl
  have hst1nd : (st1.map Prod.fst).Nodup := by rw [hst1fst]; exact hnd
  have hst1len : st1.length = ch.length := by rw [hst1, List.length_map]
  obtain ⟨hffst, hfrec⟩ := foldPR_char cur planKeys data st1 hst1nd
  set st2 := data.foldl (processResource cur planKeys) st1 with hst2
  have hst2len : st2.length = st1.length := by
    have := congrArg List.length hffst
    simpa using this
  constructor
  · rw [List.map_map]
    have : (st2.map Prod.fst) = ch.map Prod.fst := hffst.trans hst1fst
    rw [← this]
    rfl
  · intro i hi
    have hi1 : i < st1.length := by omega
    have hi2 : i < st2.length := by omega
    have hclean : (st2.map (fun p => (p.1, { p.2 with tempsRestant := none }))).getD i default =
        ((st2.getD i default).1, { (st2.getD i default).2 with tempsRestant := none }) :=
      getD_map_pair (fun c => { c with tempsRestant := none }) st2 i hi2
    have hdep : st1.getD i default = ((ch.getD i default).1, deprog cur (ch.getD i default).2) :=
      getD_map_pair _ ch i hi
    obtain ⟨hfr, hun⟩ := hfrec i hi1
    refine ⟨?_, ?_, ?_, ?_⟩
    · rw [hclean]
      have h1 : frame4 { (st2.getD i default).2 with tempsRestant := none } =
          frame4 (st2.getD i default).2 := rfl
      have h2 : frame4 (st2.getD i default).2 = frame4 (st1.getD i default).2 := by
        rw [frame4, frame4]
        rw [frame, frame] at hfr
        have hs := congrArg (fun q => q.1) hfr
        have hp := congrArg (fun q => q.2.1) hfr
        have ht := congrArg (fun q => q.2.2.1) hfr
        have he := congrArg (fun q => q.2.2.2.1) hfr
        simp only at hs hp ht he
        rw [hs, hp, ht, he]
      have h3 : frame4 (st1.getD i default).2 = frame4 (ch.getD i default).2 := by
        rw [hdep]
        rw [frame4, frame4, deprog]
        by_cases h : !isActive (ch.getD i default).2.status
        · rw [if_pos h]
        · rw [if_neg h]
      rw [h1, h2, h3]
    · rw [hclean]
      have h1 : (st2.getD i default).1 = (st1.getD i default).1 := by
        have hmap := congrArg (fun l => l.getD i "") hffst
        simp only at hmap
        rw [List.getD_eq_getElem _ _ (by simpa using hi2),
          List.getD_eq_getElem _ _ (by simpa [hst1len] using hi1)] at hmap
        rw [List.getElem_map, List.getElem_map] at hmap
        rw [List.getD_eq_getElem _ _ hi2, List.getD_eq_getElem _ _ hi1]
        exact hmap
      rw [h1, hdep]
    · rw [hclean]
    · intro hinact
      rw [hclean]
      have hown : ∀ nd ∈ data, ownedBy nd.1 (st1.getD i default) = false := by
        intro nd _
        rw [hdep, ownedBy]
        have : isActive (deprog cur (ch.getD i default).2).status = false := by
          have : (deprog cur (ch.getD i default).2).status = (ch.getD i default).2.status :=
            status_eq_of_frame (frame_deprog cur _)
          rw [this]
          exact hinact
        simp only [Bool.and_eq_false_iff]
        right
        rw [Bool.eq_false_iff]
        intro hcontra
        rw [this] at hcontra
        cases hcontra
      rw [hun hown, hdep]
      rw [deprog, if_pos (by rw [Bool.not_eq_eq_eq_not, Bool.not_true]; exact hinact)]

/-! ## Claim C4: deprogramming of non-active jobs -/

/-- C4: for every job whose status is not active (not `Nouveau` and not
`Prépa. en cours`), reallocation deletes every allocation entry whose week key
is in the calendar's `weekMap` with index at or after the current week, and
leaves every entry whose `weekMap` index is strictly before the current week
unchanged. -/
theorem C4_deprogramming (today : Nat) (ch : Store) (data : DataStore) (cur : Nat)
    (hcur : currentWeekIdx? today = some cur) (hnd : (ch.map Prod.fst).Nodup)
    (i : Nat) (hi : i < ch.length)
    (hinact : isActive (ch.getD i default).2.status = false) :
    (∀ k j, weekIdxLast k = some j → cur ≤ j →
      alGet ((repartitionAutomatique today ch data).getD i default).2.planification k = none) ∧
    (∀ k j, weekIdxLast k = some j → j < cur →
      alGet ((repartitionAutomatique today ch data).getD i default).2.planification k =
        alGet (ch.getD i default).2.planification k) := by
  obtain ⟨-, hrec⟩ := repartition_char today ch data cur hcur hnd
  obtain ⟨-, -, -, hplan⟩ := hrec i hi
  rw [hplan hinact]
  constructor
  · intro k j hk hj
    rw [alGet_filter_keyPred (fun k => !keyIdxGeCur cur k)]
    have : keyIdxGeCur cur k = true := by
      rw [keyIdxGeCur, hk]
      simpa using hj
    rw [this]
    simp
  · intro k j hk hj
    rw [alGet_filter_keyPred (fun k => !keyIdxGeCur cur k)]
    have : keyIdxGeCur cur k = false := by
      rw [keyIdxGeCur, hk]
      simpa using Nat.not_le_of_lt hj
    rw [this]
    simp

set_option maxRecDepth 100000 in
theorem C4_witness :
    alGet ((repartitionAutomatique 3253
        [("J1", { status := "Annulé", preparateur := some "A", prepTime := 5000,
                  endDate := (8, 12, 2028),
                  planification := [((2028, 40), 120), ((2028, 50), 60)] })] []).getD 0
        default).2.planification (2028, 50) = none ∧
    alGet ((repartitionAutomatique 3253
        [("J1", { status := "Annulé", preparateur := some "A", prepTime := 5000,
                  endDate := (8, 12, 2028),
                  planification := [((2028, 40), 120), ((2028, 50), 60)] })] []).getD 0
        default).2.planification (2028, 40) = some 120 := by
  have h := C4_deprogramming 3253
    [("J1", { status := "Annulé", preparateur := some "A", prepTime := 5000,
              endDate := (8, 12, 2028),
              planification := [((2028, 40), 120), ((2028, 50), 60)] })] [] 256
    (by decide) (by decide) 0 (by decide) (by decide)
  refine ⟨h.1 (2028, 50) 258 (by decide) (by decide), ?_⟩
  rw [h.2 (2028, 40) 248 (by decide) (by decide)]
  decide

/-! ## Claim C8: frame property of a successful run -/

set_option maxRecDepth 100000 in
/-- C8 fails as stated: a successful run rewrites more than the allocation
maps — the scratch field `ChargeRestante` is assigned on every processed
active job and the cleanup only deletes `tempsRestant`, so `ChargeRestante`
persists.  Concretely, a job entering with no `ChargeRestante` leaves a
successful reallocation with `ChargeRestante = some 5000`. -/
theorem C8_counterexample :
    currentWeekIdx? 3253 = some 256 ∧
    ((repartitionAutomatique 3253
        [("J1", { status := "Nouveau", preparateur := some "A", prepTime := 5000,
                  endDate := (8, 12, 2028), planification := [] })]
        [("A", [((2028, 48), Avail.obj 2400)])]).getD 0 default).2.ChargeRestante = some 5000 ∧
    (([("J1", ({ status := "Nouveau", preparateur := some "A", prepTime := 5000,
                 endDate := (8, 12, 2028),
                 planification := [] } : Chantier))] : Store).getD 0
        default).2.ChargeRestante = none := by
  refine ⟨by decide, by decide, by decide⟩

/-- C8 (amended): after a successful run, the changes to any job record are
confined to its allocation map, the recomputed `ChargeRestante` scratch field,
and the removal of the `tempsRestant` scratch field: id, `status`,
`preparateur`, `prepTime` and `endDate` are unchanged for every job, and
`tempsRestant` is absent from every job afterwards.  No availability record is
ever written: the operation returns only the job store and never assigns into
the availability store. -/
theorem C8_frame (today : Nat) (ch : Store) (data : DataStore) (cur : Nat)
    (hcur : currentWeekIdx? today = some cur) (hnd : (ch.map Prod.fst).Nodup)
    (i : Nat) (hi : i < ch.length) :
    ((repartitionAutomatique today ch data).getD i default).1 = (ch.getD i default).1 ∧
    frame4 ((repartitionAutomatique today ch data).getD i default).2 =
      frame4 ((ch.getD i default).2) ∧
    ((repartitionAutomatique today ch data).getD i default).2.tempsRestant = none := by
  obtain ⟨-, hrec⟩ := repartition_char today ch data cur hcur hnd
  obtain ⟨h1, h2, h3, -⟩ := hrec i hi
  exact ⟨h2, h1, h3⟩

set_option maxRecDepth 100000 in
theorem C8_witness :
    ((repartitionAutomatique 3253
        [("J1", { status := "Nouveau", preparateur := some "A", prepTime := 5000,
                  endDate := (8, 12, 2028), planification := [],
                  tempsRestant := some 7 })]
        [("A", [((2028, 48), Avail.obj 2400)])]).getD 0 default).1 = "J1" ∧
    frame4 ((repartitionAutomatique 3253
        [("J1", { status := "Nouveau", preparateur := some "A", prepTime := 5000,
                  endDate := (8, 12, 2028), planification := [],
                  tempsRestant := some 7 })]
        [("A", [((2028, 48), Avail.obj 2400)])]).getD 0 default).2 =
      ("Nouveau", some "A", 5000, (8, 12, 2028)) ∧
    ((repartitionAutomatique 3253
        [("J1", { status := "Nouveau", preparateur := some "A", prepTime := 5000,
                  endDate := (8, 12, 2028), planification := [],
                  tempsRestant := some 7 })]
        [("A", [((2028, 48), Avail.obj 2400)])]).getD 0 default).2.tempsRestant = none := by
  have h := C8_frame 3253
    [("J1", { status := "Nouveau", preparateur := some "A", prepTime := 5000,
              endDate := (8, 12, 2028), planification := [], tempsRestant := some 7 })]
    [("A", [((2028, 48), Avail.obj 2400)])] 256 (by decide) (by decide) 0 (by decide)
  refine ⟨h.1, ?_, h.2.2⟩
  rw [h.2.1]
  decide

/-! ## Claim C9: calendar well-formedness -/

theorem pairwise_lt_of_adjacent (key : Week → Nat) :
    ∀ l : List Week, (∀ p ∈ l.zip l.tail, key p.1 < key p.2) →
      l.Pairwise (fun a b => key a < key b) := by
  intro l
  induction l with
  | nil => intro _; exact List.Pairwise.nil
  | cons a l ih =>
    intro h
    cases l with
    | nil => exact List.pairwise_singleton _ a
    | cons b l2 =>
      have hab : key a < key b := h (a, b) (by simp)
      have htail : ∀ p ∈ (b :: l2).zip (b :: l2).tail, key p.1 < key p.2 := by
        intro p hp
        refine h p ?_
        simp only [List.tail_cons] at hp ⊢
        exact List.Mem.tail _ hp
      have hpw := ih htail
      refine List.Pairwise.cons ?_ hpw
      intro c hc
      rcases List.mem_cons.mp hc with rfl | hc2
      · exact hab
      · have hbc : key b < key c := (List.pairwise_cons.mp hpw).1 c hc2
        omega

set_option maxRecDepth 100000 in
set_option maxHeartbeats 1000000 in
/-- C9: the generated 2024–2028 week sequence contains exactly one `Week` per
ISO week number per year — its `(wno, year)` pairs are duplicate-free and form
exactly the sequence of weeks `1 .. getISOWeeksInYear y` for each year of the
span in order — it is in ascending chronological order, each week's end is its
start plus 6 days, and consecutive weeks are contiguous: each start is the
previous end plus one day, across year boundaries included. -/
theorem C9_calendar :
    (weeks.map (fun w => (w.wno, w.year))).Nodup ∧
    (weeks.map (fun w => (w.wno, w.year)) =
      ((List.range 5).map (fun i =>
        (List.range (getISOWeeksInYear (2024 + i))).map (fun j => (j + 1, 2024 + i)))).flatten) ∧
    (∀ p ∈ weeks.zip weeks.tail, p.1.start < p.2.start) ∧
    (∀ w ∈ weeks, w.endD = w.start + 6) ∧
    (∀ p ∈ weeks.zip weeks.tail, p.2.start = p.1.endD + 1) := by
  refine ⟨?_, by decide, by decide, by decide, by decide⟩
  have hadj : ∀ p ∈ weeks.zip weeks.tail,
      p.1.year * 100 + p.1.wno < p.2.year * 100 + p.2.wno := by decide
  have hpw := pairwise_lt_of_adjacent (fun w => w.year * 100 + w.wno) weeks hadj
  rw [List.Nodup, List.pairwise_map]
  refine hpw.imp ?_
  intro a b hk
  intro hcontra
  have h1 : a.wno = b.wno := congrArg Prod.fst hcontra
  have h2 : a.year = b.year := congrArg Prod.snd hcontra
  dsimp only at hk
  omega

/-! ## Claim C3: the badge pass at zero-availability weeks -/

set_option maxRecDepth 1000000 in
/-- C3 fails as stated: the code updates `lastTdisp` only inside the
`if (calc.dispo > 0)` branch, so a zero-dispo week does NOT update it.  The
map below is the projection state the real pipeline produces for a resource
with 60, 0, 60 available minutes on weeks S35–S37/2028 (current = S35) and one
600-minute job due 16 weeks out: the zero-dispo week S36 and the following
week share `Tdisp = -8`, so under the claim the badge of S37 would be `null`
(no change against the zero week); the code instead compares against the older
`Tdisp = 1` of S35 and yields `-9`. -/
theorem C3_counterexample :
    ((alGet (pass3
        [((2028, 35), ({ dispo := 1, C := 0, CA := 1, M := 1, Tdisp := some 1 } : Marge)),
         ((2028, 36), ({ dispo := 0, C := 0, CA := 1, M := 1, Tdisp := some (-8) } : Marge)),
         ((2028, 37), ({ dispo := 1, C := 0, CA := 2, M := 2, Tdisp := some (-8) } : Marge))]
        [(2028, 35), (2028, 36), (2028, 37)]) (2028, 37)).map Marge.badge =
      some (some (-9))) ∧
    ((alGet (pass3Spec
        [((2028, 35), ({ dispo := 1, C := 0, CA := 1, M := 1, Tdisp := some 1 } : Marge)),
         ((2028, 36), ({ dispo := 0, C := 0, CA := 1, M := 1, Tdisp := some (-8) } : Marge)),
         ((2028, 37), ({ dispo := 1, C := 0, CA := 2, M := 2, Tdisp := some (-8) } : Marge))]
        [(2028, 35), (2028, 36), (2028, 37)]) (2028, 37)).map Marge.badge =
      some none) := by
  constructor
  · with_unfolding_all decide
  · with_unfolding_all decide

/-- C3 (amended): in the badge pass, a week whose `dispo` is 0 gets
`badge = null` and `lastTdisp` is NOT updated — it keeps its previous value —
so the next week with `dispo > 0` computes its badge delta against the `Tdisp`
of the last week that had positive dispo (or shows the absolute rounded value
if there was none), not against the Tdisp of the zero-dispo week. -/
theorem C3_badge_zero_dispo (m : List (WKey × Marge)) (last : Option ℚ) (key : WKey)
    (mg : Marge) (hget : alGet m key = some mg) (hdispo : mg.dispo = 0) :
    badgeStep (m, last) key = (alSet m key { mg with badge := none }, last) := by
  rw [badgeStep, hget]
  dsimp only
  rw [if_neg (by rw [hdispo]; exact lt_irrefl 0)]

theorem C3_witness :
    badgeStep
      ([((2028, 59), ({ dispo := 0, C := 0, CA := 0, M := 3, Tdisp := some 5 } : Marge))],
        some 1) (2028, 59) =
    ([((2028, 59),
        ({ dispo := 0, C := 0, CA := 0, M := 3, Tdisp := some 5, badge := none } : Marge))],
      some 1) := by
  have h := C3_badge_zero_dispo
    [((2028, 59), ({ dispo := 0, C := 0, CA := 0, M := 3, Tdisp := some 5 } : Marge))]
    (some 1) (2028, 59)
    ({ dispo := 0, C := 0, CA := 0, M := 3, Tdisp := some 5 } : Marge)
    (by with_unfolding_all decide) rfl
  rw [h]
  with_unfolding_all decide

/-! ## Claim C7: greedy overflow scenario -/

set_option maxRecDepth 100000000 in
/-- C7: resource "A" has 2400 minutes availability in each of the 3 weeks from
the current week (S48–S50/2028, anchor = Monday of S48); the single active job
needs 5000 minutes with deadline 08/12/2028 (week S49, two weeks out counting
from the current week).  Reallocation gives week 1 2400, week 2 2400 and week
3 (past the deadline, without error) 200; the allocated total is 5000, so the
remainder ends at 0.  `chargeEcheance` for the deadline week equals
`5000/60` hours — and does so regardless of how the minutes were split, here
checked on both the pre- and post-reallocation stores. -/
theorem C7_scenario :
    currentWeekIdx? 3253 = some 256 ∧
    (alGet ((repartitionAutomatique 3253
        [("J1", { status := "Nouveau", preparateur := some "A", prepTime := 5000,
                  endDate := (8, 12, 2028), planification := [] })]
        [("A", [((2028, 48), Avail.obj 2400), ((2028, 49), Avail.num 2400),
                ((2028, 50), Avail.num 2400)])]).getD 0 default).2.planification
      (2028, 48) = some 2400) ∧
    (alGet ((repartitionAutomatique 3253
        [("J1", { status := "Nouveau", preparateur := some "A", prepTime := 5000,
                  endDate := (8, 12, 2028), planification := [] })]
        [("A", [((2028, 48), Avail.obj 2400), ((2028, 49), Avail.num 2400),
                ((2028, 50), Avail.num 2400)])]).getD 0 default).2.planification
      (2028, 49) = some 2400) ∧
    (alGet ((repartitionAutomatique 3253
        [("J1", { status := "Nouveau", preparateur := some "A", prepTime := 5000,
                  endDate := (8, 12, 2028), planification := [] })]
        [("A", [((2028, 48), Avail.obj 2400), ((2028, 49), Avail.num 2400),
                ((2028, 50), Avail.num 2400)])]).getD 0 default).2.planification
      (2028, 50) = some 200) ∧
    (sumVals ((repartitionAutomatique 3253
        [("J1", { status := "Nouveau", preparateur := some "A", prepTime := 5000,
                  endDate := (8, 12, 2028), planification := [] })]
        [("A", [((2028, 48), Avail.obj 2400), ((2028, 49), Avail.num 2400),
                ((2028, 50), Avail.num 2400)])]).getD 0 default).2.planification = 5000) ∧
    ((alGet (margesGlobales
        [((2028, 48), Avail.obj 2400), ((2028, 49), Avail.num 2400),
         ((2028, 50), Avail.num 2400)]
        (repartitionAutomatique 3253
          [("J1", { status := "Nouveau", preparateur := some "A", prepTime := 5000,
                    endDate := (8, 12, 2028), planification := [] })]
          [("A", [((2028, 48), Avail.obj 2400), ((2028, 49), Avail.num 2400),
                  ((2028, 50), Avail.num 2400)])])
        "A" 256) (2028, 49)).map Marge.C = some (Rat.divInt 5000 60)) ∧
    ((alGet (margesGlobales
        [((2028, 48), Avail.obj 2400), ((2028, 49), Avail.num 2400),
         ((2028, 50), Avail.num 2400)]
        [("J1", { status := "Nouveau", preparateur := some "A", prepTime := 5000,
                  endDate := (8, 12, 2028), planification := [] })]
        "A" 256) (2028, 49)).map Marge.C = some (Rat.divInt 5000 60)) := by
  refine ⟨by decide, by decide, by decide, by decide, by decide, ?_, ?_⟩
  · with_unfolding_all decide
  · with_unfolding_all decide

/-! ## Sum lemmas for the allocation pass -/

theorem foldl_add_eq {α : Type} (f : α → Int) (l : List α) :
    ∀ a : Int, l.foldl (fun s x => s + f x) a = a + (l.map f).sum := by
  induction l with
  | nil => intro a; simp
  | cons x l ih =>
    intro a
    rw [List.foldl_cons, ih, List.map_cons, List.sum_cons]
    ring

theorem sumVals_eq_sum (p : List (WKey × Int)) : sumVals p = (p.map Prod.snd).sum := by
  rw [sumVals]
  have := foldl_add_eq (fun e : WKey × Int => e.2) p 0
  simpa using this

theorem sumVals_cons (e : WKey × Int) (p : List (WKey × Int)) :
    sumVals (e :: p) = e.2 + sumVals p := by
  rw [sumVals_eq_sum, sumVals_eq_sum, List.map_cons, List.sum_cons]

theorem sumAtKey_eq_sum (g : Store) (k : WKey) :
    sumAtKey g k = (g.map (fun q => planAt q.2 k)).sum := by
  rw [sumAtKey]
  have := foldl_add_eq (fun q : String × Chantier => planAt q.2 k) g 0
  simpa using this

theorem planAt_addAlloc_eq (c : Chantier) (k : WKey) (t : Int) :
    planAt (addAlloc c k t) k = planAt c k + t := by
  rw [addAlloc, planAt]
  simp only [alGet_alSet_eq]
  rfl

theorem planAt_addAlloc_ne (c : Chantier) (k k' : WKey) (t : Int) (h : k' ≠ k) :
    planAt (addAlloc c k t) k' = planAt c k' := by
  rw [addAlloc, planAt]
  simp only [alGet_alSet_ne _ _ _ _ h]
  rfl

theorem sum_set_int (l : List Int) :
    ∀ (j : Nat) (a : Int), j < l.length → (l.set j a).sum = l.sum - l.getD j 0 + a := by
  induction l with
  | nil => intro j a h; simp at h
  | cons x l ih =>
    intro j a h
    cases j with
    | zero =>
      simp only [List.set, List.sum_cons, List.getD_cons_zero]
      ring
    | succ j =>
      simp only [List.set, List.sum_cons, List.getD_cons_succ]
      rw [ih j a (by simpa using h)]
      ring

theorem getD_map_int (f : (String × Chantier) → Int) (l : Store) (j : Nat) (hj : j < l.length) :
    (l.map f).getD j 0 = f (l.getD j default) := by
  rw [List.getD_eq_getElem _ _ (by simpa using hj), List.getD_eq_getElem _ _ hj,
    List.getElem_map]

theorem sumAtKey_modifyJob_eq (g : Store) (j : Nat) (k : WKey) (t : Int) (hj : j < g.length) :
    sumAtKey (modifyJob g j (fun c => addAlloc c k t)) k = sumAtKey g k + t := by
  rw [sumAtKey_eq_sum, sumAtKey_eq_sum, modifyJob, List.map_set,
    sum_set_int _ j _ (by simpa using hj), getD_map_int _ _ _ hj]
  simp only [planAt_addAlloc_eq]
  ring

theorem sumAtKey_modifyJob_ne (g : Store) (j : Nat) (k k' : WKey) (t : Int) (h : k' ≠ k) :
    sumAtKey (modifyJob g j (fun c => addAlloc c k t)) k' = sumAtKey g k' := by
  by_cases hj : j < g.length
  · rw [sumAtKey_eq_sum, sumAtKey_eq_sum, modifyJob, List.map_set,
      sum_set_int _ j _ (by simpa using hj), getD_map_int _ _ _ hj]
    simp only [planAt_addAlloc_ne _ _ _ _ h]
    ring
  · rw [modifyJob, List.set_eq_of_length_le (by simpa using Nat.le_of_not_lt hj)]

theorem map_setk_id {α : Type} [DecidableEq WKey] (k : WKey) (v : WKey × α) :
    ∀ p : List (WKey × α), k ∉ p.map Prod.fst →
      p.map (fun e => if e.1 = k then v else e) = p := by
  intro p
  induction p with
  | nil => intro _; rfl
  | cons x p ih =>
    intro h
    rw [List.map_cons, List.mem_cons] at h
    push_neg at h
    rw [List.map_cons, if_neg (by simpa using Ne.symm h.1), ih h.2]

theorem alGet_eq_none_of_not_mem {α : Type} [DecidableEq WKey] (p : List (WKey × α)) (k : WKey)
    (h : k ∉ p.map Prod.fst) : alGet p k = none := by
  induction p with
  | nil => rfl
  | cons x p ih =>
    rw [List.map_cons, List.mem_cons] at h
    push_neg at h
    rw [alGet_cons, if_neg (by simpa using Ne.symm h.1), ih h.2]

theorem alSet_nodup_fst {α : Type} [DecidableEq WKey] (m : List (WKey × α)) (k : WKey) (v : α)
    (h : (m.map Prod.fst).Nodup) : ((alSet m k v).map Prod.fst).Nodup := by
  by_cases hm : k ∈ m.map Prod.fst
  · rw [alSet_map_fst_of_mem _ _ _ hm]; exact h
  · rw [alSet_of_not_mem _ _ _ hm, List.map_append]
    rw [List.nodup_append]
    exact ⟨h, List.nodup_singleton k, by simpa using hm⟩

theorem sumVals_filter_alSet (q : WKey → Bool) (k : WKey) (v : Int) :
    ∀ p : List (WKey × Int), (p.map Prod.fst).Nodup →
      sumVals ((alSet p k v).filter (fun e => q e.1)) =
        sumVals (p.filter (fun e => q e.1)) +
          (if q k then v - (alGet p k).getD 0 else 0) := by
  intro p
  induction p with
  | nil =>
    intro _
    have h0 : alSet ([] : List (WKey × Int)) k v = [(k, v)] := by
      rw [alSet_of_not_mem _ _ _ (by simp)]
      rfl
    rw [h0, alGet_nil]
    by_cases hq : q k
    · rw [List.filter_cons, if_pos (by simpa using hq), if_pos hq]
      simp [sumVals_cons, sumVals]
    · rw [List.filter_cons, if_neg (by simpa using hq), if_neg hq]
      simp [sumVals]
  | cons x p ih =>
    intro hnd
    rw [List.map_cons, List.nodup_cons] at hnd
    rw [alSet_cons]
    by_cases hx : x.1 = k
    · rw [if_pos hx]
      have hmapid : p.map (fun e => if e.1 = k then (k, v) else e) = p :=
        map_setk_id k (k, v) p (hx ▸ hnd.1)
      rw [hmapid]
      have hget : alGet (x :: p) k = some x.2 := by
        rw [alGet_cons, if_pos hx]
      rw [hget]
      by_cases hq : q k
      · rw [List.filter_cons, List.filter_cons, if_pos (by simpa using hq),
          if_pos (by simpa [hx] using hq), if_pos hq, sumVals_cons, sumVals_cons]
        simp only [Option.getD_some]
        ring
      · rw [List.filter_cons, List.filter_cons, if_neg (by simpa using hq),
          if_neg (by simpa [hx] using hq), if_neg hq]
        ring
    · rw [if_neg hx]
      have hget : alGet (x :: p) k = alGet p k := by
        rw [alGet_cons, if_neg hx]
      rw [hget]
      by_cases hq : q x.1
      · rw [List.filter_cons, List.filter_cons, if_pos (by simpa using hq),
          if_pos (by simpa using hq), sumVals_cons, sumVals_cons, ih hnd.2]
        ring
      · rw [List.filter_cons, List.filter_cons, if_neg (by simpa using hq),
          if_neg (by simpa using hq), ih hnd.2]

/-! ## The week walk: remainder, capacity and conservation invariants -/

theorem allocWeek_skip (dispoF : WKey → Int) (j : Nat) (st : Store × Int) (k : WKey)
    (h : st.2 ≤ 0) : allocWeek dispoF j st k = st := by
  rw [allocWeek, if_pos h]

theorem weekFold_rem (dispoF : WKey → Int) (j : Nat) (keys : List WKey) :
    ∀ (g : Store) (rem : Int),
      (weekFold dispoF j (g, rem) keys).2 ≤ rem ∧
      (rem ≤ 0 → weekFold dispoF j (g, rem) keys = (g, rem)) ∧
      (0 ≤ rem → 0 ≤ (weekFold dispoF j (g, rem) keys).2) := by
  induction keys with
  | nil => intro g rem; exact ⟨le_refl _, fun _ => rfl, fun h => h⟩
  | cons k keys ih =>
    intro g rem
    rw [weekFold, List.foldl_cons, ← weekFold]
    rcases allocWeek_cases dispoF j (g, rem) k with heq | ⟨t, ht0, htr, -, heq⟩
    · rw [heq]; exact ih g rem
    · rw [heq]
      obtain ⟨ih1, -, ih3⟩ := ih (modifyJob g j fun c => addAlloc c k t) (rem - t)
      refine ⟨le_trans ih1 (by omega), ?_, ?_⟩
      · intro h0
        omega
      · intro h0
        exact ih3 (by omega)

theorem weekFold_sums (dispoF : WKey → Int) (j : Nat) (keys : List WKey) :
    ∀ (g : Store) (rem : Int) (k : WKey), j < g.length →
      sumAtKey ((weekFold dispoF j (g, rem) keys).1) k ≤ max (sumAtKey g k) (dispoF k) ∧
      sumAtKey g k ≤ sumAtKey ((weekFold dispoF j (g, rem) keys).1) k ∧
      (k ∉ keys → sumAtKey ((weekFold dispoF j (g, rem) keys).1) k = sumAtKey g k) := by
  induction keys with
  | nil =>
    intro g rem k _
    exact ⟨le_max_left _ _, le_refl _, fun _ => rfl⟩
  | cons k1 keys ih =>
    intro g rem k hj
    rw [weekFold, List.foldl_cons, ← weekFold]
    rcases allocWeek_cases dispoF j (g, rem) k1 with heq | ⟨t, ht0, htr, htmin, heq⟩
    · rw [heq]
      obtain ⟨h1, h2, h3⟩ := ih g rem k hj
      exact ⟨h1, h2, fun hk => h3 (fun hmem => hk (List.mem_cons_of_mem k1 hmem))⟩
    · rw [heq]
      have hj' : j < (modifyJob g j fun c => addAlloc c k1 t).length := by
        rw [modifyJob_length]; exact hj
      obtain ⟨h1, h2, h3⟩ := ih (modifyJob g j fun c => addAlloc c k1 t) (rem - t) k hj'
      by_cases hkk : k = k1
      · subst hkk
        have hsum : sumAtKey (modifyJob g j fun c => addAlloc c k t) k = sumAtKey g k + t :=
          sumAtKey_modifyJob_eq g j k t hj
        have htfree : t ≤ max 0 (dispoF k - sumAtKey g k) := by
          rw [htmin]; exact min_le_right _ _
        constructor
        · refine le_trans h1 ?_
          rw [hsum]
          have : sumAtKey g k + t ≤ max (sumAtKey g k) (dispoF k) := by
            rcases le_or_lt (dispoF k - sumAtKey g k) 0 with hc | hc
            · have : t ≤ 0 := by omega
              omega
            · have : t ≤ dispoF k - sumAtKey g k := by
                have := max_eq_right (le_of_lt hc)
                omega
              have h4 : sumAtKey g k + t ≤ dispoF k := by omega
              exact le_trans h4 (le_max_right _ _)
          exact max_le this (le_max_right _ _)
        · refine ⟨le_trans ?_ h2, ?_⟩
          · rw [hsum]; omega
          · intro hk
            exact absurd (List.mem_cons_self k keys) hk
      · have hsum : sumAtKey (modifyJob g j fun c => addAlloc c k1 t) k = sumAtKey g k :=
          sumAtKey_modifyJob_ne g j k1 k t hkk
        rw [hsum] at h1 h2 h3
        exact ⟨h1, h2, fun hk => h3 (fun hmem => hk (List.mem_cons_of_mem k1 hmem))⟩

theorem weekFold_saturate (dispoF : WKey → Int) (j : Nat) (keys : List WKey) :
    ∀ (g : Store) (rem : Int), j < g.length →
      0 < (weekFold dispoF j (g, rem) keys).2 →
      ∀ k ∈ keys, dispoF k ≤ sumAtKey ((weekFold dispoF j (g, rem) keys).1) k := by
  induction keys with
  | nil => intro g rem _ _ k hk; cases hk
  | cons k1 keys ih =>
    intro g rem hj hpos k hk
    rw [weekFold, List.foldl_cons, ← weekFold] at hpos ⊢
    have hrem1 : 0 < (allocWeek dispoF j (g, rem) k1).2 := by
      have h1 := (weekFold_rem dispoF j keys (allocWeek dispoF j (g, rem) k1).1
        (allocWeek dispoF j (g, rem) k1).2).1
      rw [Prod.mk.eta] at h1
      omega
    have hrem0 : 0 < rem := by
      rcases allocWeek_cases dispoF j (g, rem) k1 with heq | ⟨t, ht0, htr, -, heq⟩
      · rw [heq] at hrem1; exact hrem1
      · rw [heq] at hrem1; simp only at hrem1 htr; omega
    have hj1 : j < (allocWeek dispoF j (g, rem) k1).1.length := by
      rw [allocWeek_fst_length]; exact hj
    rcases List.mem_cons.mp hk with rfl | hk2
    · -- the stepped key: saturated at the step, then sums only grow
      have hsat : dispoF k ≤ sumAtKey ((allocWeek dispoF j (g, rem) k).1) k := by
        rw [allocWeek, if_neg (by simp only; omega)] at hrem1 ⊢
        simp only at hrem1 ⊢
        have h0 : (0 : Int) ≤ max 0 (dispoF k - sumAtKey g k) := le_max_left _ _
        by_cases htp : 0 < min rem (max 0 (dispoF k - sumAtKey g k))
        · rw [if_pos htp] at hrem1 ⊢
          simp only at hrem1 ⊢
          rw [sumAtKey_modifyJob_eq g j k _ hj]
          have hmle : min rem (max 0 (dispoF k - sumAtKey g k)) ≤
              max 0 (dispoF k - sumAtKey g k) := min_le_right _ _
          have hlt : min rem (max 0 (dispoF k - sumAtKey g k)) < rem := by omega
          have heqm : min rem (max 0 (dispoF k - sumAtKey g k)) =
              max 0 (dispoF k - sumAtKey g k) := by
            rcases min_cases rem (max 0 (dispoF k - sumAtKey g k)) with ⟨h, h2⟩ | ⟨h, h2⟩ <;> omega
          rw [heqm]
          rcases le_or_lt (dispoF k - sumAtKey g k) 0 with hc | hc
          · exfalso
            have := max_eq_left hc
            omega
          · have := max_eq_right (le_of_lt hc)
            omega
        · rw [if_neg htp] at hrem1 ⊢
          simp only at hrem1 ⊢
          have hfree : max 0 (dispoF k - sumAtKey g k) ≤ 0 := by
            rcases min_cases rem (max 0 (dispoF k - sumAtKey g k)) with ⟨h, h2⟩ | ⟨h, h2⟩ <;> omega
          have hd : dispoF k - sumAtKey g k ≤ 0 := by
            rcases le_or_lt (dispoF k - sumAtKey g k) 0 with hc | hc
            · exact hc
            · exfalso
              have := max_eq_right (le_of_lt hc)
              omega
          omega
      refine le_trans hsat ?_
      have h2 := (weekFold_sums dispoF j keys (allocWeek dispoF j (g, rem) k).1
        (allocWeek dispoF j (g, rem) k).2 k hj1).2.1
      rw [Prod.mk.eta] at h2
      exact h2
    · have h3 := ih (allocWeek dispoF j (g, rem) k1).1 (allocWeek dispoF j (g, rem) k1).2 hj1
      rw [Prod.mk.eta] at h3
      exact h3 hpos k hk2

theorem filter_mapSetk_pred_false {α : Type} (q : WKey → Bool) (k : WKey) (v : WKey × α)
    (hv : v.1 = k) (hq : q k = false) :
    ∀ p : List (WKey × α),
      (p.map (fun e => if e.1 = k then v else e)).filter (fun e => q e.1) =
        p.filter (fun e => q e.1) := by
  intro p
  induction p with
  | nil => rfl
  | cons x p ih =>
    by_cases hx : x.1 = k
    · rw [List.map_cons, if_pos hx, List.filter_cons, List.filter_cons]
      rw [if_neg (by simp [hv, hq]), if_neg (by simp [hx, hq])]
      exact ih
    · rw [List.map_cons, if_neg hx, List.filter_cons, List.filter_cons]
      by_cases hqx : q x.1
      · rw [if_pos (by simpa using hqx), if_pos (by simpa using hqx), ih]
      · rw [if_neg (by simpa using hqx), if_neg (by simpa using hqx)]
        exact ih

theorem filter_alSet_pred_false {α : Type} (q : WKey → Bool) (k : WKey) (v : α)
    (hq : q k = false) (p : List (WKey × α)) :
    (alSet p k v).filter (fun e => q e.1) = p.filter (fun e => q e.1) := by
  by_cases hm : k ∈ p.map Prod.fst
  · rw [alSet_of_mem _ _ _ hm]
    exact filter_mapSetk_pred_false q k (k, v) rfl hq p
  · rw [alSet_of_not_mem _ _ _ hm, List.filter_append]
    have : ([(k, v)] : List (WKey × α)).filter (fun e => q e.1) = [] := by
      simp [List.filter_cons, hq]
    rw [this, List.append_nil]

/-- Walking the weeks preserves `futureSum + remainder` for the walked job,
keeps its allocation keys duplicate-free, and never touches its past
allocation entries (all walked keys have index at or after the current week). -/
theorem weekFold_future (dispoF : WKey → Int) (j : Nat) (cur : Nat) (keys : List WKey)
    (hkeys : ∀ k ∈ keys, keyIdxGeCur cur k = true) :
    ∀ (g : Store) (rem : Int), j < g.length →
      ((((g.getD j default).2.planification).map Prod.fst).Nodup) →
      futureSum cur (((weekFold dispoF j (g, rem) keys).1.getD j default).2.planification) +
          (weekFold dispoF j (g, rem) keys).2 =
        futureSum cur ((g.getD j default).2.planification) + rem ∧
      ((((weekFold dispoF j (g, rem) keys).1.getD j default).2.planification).map
        Prod.fst).Nodup ∧
      filterPast cur (((weekFold dispoF j (g, rem) keys).1.getD j default).2.planification) =
        filterPast cur ((g.getD j default).2.planification) := by
  induction keys with
  | nil => intro g rem _ hnd; exact ⟨rfl, hnd, rfl⟩
  | cons k1 keys ih =>
    intro g rem hj hnd
    have hk1 : keyIdxGeCur cur k1 = true := hkeys k1 (List.mem_cons_self k1 keys)
    have hkeys' : ∀ k ∈ keys, keyIdxGeCur cur k = true := fun k hk =>
      hkeys k (List.mem_cons_of_mem k1 hk)
    rw [weekFold, List.foldl_cons, ← weekFold]
    rcases allocWeek_cases dispoF j (g, rem) k1 with heq | ⟨t, ht0, htr, htmin, heq⟩
    · rw [heq]
      have h2 := congrArg Prod.snd heq
      simp only at h2
      obtain ⟨ih1, ih2, ih3⟩ :=
        (ih (fun k hk => hkeys' k hk) g rem hj hnd : _)
      exact ⟨ih1, ih2, ih3⟩
    · rw [heq]
      simp only at heq ⊢
      set g1 := modifyJob g j fun c => addAlloc c k1 t with hg1
      have hj1 : j < g1.length := by rw [hg1, modifyJob_length]; exact hj
      have hrec : g1.getD j default =
          ((g.getD j default).1, addAlloc (g.getD j default).2 k1 t) := by
        rw [hg1]; exact modifyJob_getD_eq g j _ hj
      have hplan : (addAlloc (g.getD j default).2 k1 t).planification =
          alSet (g.getD j default).2.planification k1
            (planAt (g.getD j default).2 k1 + t) := rfl
      have hfs : futureSum cur (addAlloc (g.getD j default).2 k1 t).planification =
          futureSum cur (g.getD j default).2.planification + t := by
        rw [futureSum, futureSum, hplan,
          sumVals_filter_alSet (fun k => keyIdxGeCur cur k) k1
            (planAt (g.getD j default).2 k1 + t) _ hnd, if_pos hk1]
        rw [planAt]
        ring
      have hnd1 : (((g1.getD j default).2.planification).map Prod.fst).Nodup := by
        rw [hrec]
        exact alSet_nodup_fst _ _ _ hnd
      have hfp : filterPast cur (g1.getD j default).2.planification =
          filterPast cur (g.getD j default).2.planification := by
        rw [hrec]
        rw [filterPast, filterPast, hplan]
        exact filter_alSet_pred_false _ k1 _ (keyIdxLt_false_of_ge hk1) _
      obtain ⟨ih1, ih2, ih3⟩ := (ih (fun k hk => hkeys' k hk) g1 (rem - t) hj1 hnd1 : _)
      refine ⟨?_, ih2, ih3.trans hfp⟩
      rw [ih1, hrec]
      simp only
      rw [hfs]
      ring

theorem foldPlace_untouched (dispoF : WKey → Int) (planKeys : List WKey) (idxs : List Nat)
    (j : Nat) (hj : j ∉ idxs) :
    ∀ g : Store, (idxs.foldl (placeJob dispoF planKeys) g).getD j default = g.getD j default := by
  induction idxs with
  | nil => intro g; rfl
  | cons i idxs ih =>
    intro g
    rw [List.mem_cons] at hj
    push_neg at hj
    rw [List.foldl_cons, ih hj.2, placeJob_eq_weekFold]
    exact weekFold_getD_ne dispoF i planKeys j hj.1 _

theorem foldPlace_length (dispoF : WKey → Int) (planKeys : List WKey) (idxs : List Nat) :
    ∀ g : Store, (idxs.foldl (placeJob dispoF planKeys) g).length = g.length := by
  induction idxs with
  | nil => intro g; rfl
  | cons i idxs ih =>
    intro g
    rw [List.foldl_cons, ih, placeJob_eq_weekFold, weekFold_fst_length]

theorem foldPlace_sums (dispoF : WKey → Int) (planKeys : List WKey) (idxs : List Nat) :
    ∀ (g : Store) (k : WKey), (∀ i ∈ idxs, i < g.length) →
      sumAtKey (idxs.foldl (placeJob dispoF planKeys) g) k ≤
        max (sumAtKey g k) (dispoF k) ∧
      sumAtKey g k ≤ sumAtKey (idxs.foldl (placeJob dispoF planKeys) g) k ∧
      (k ∉ planKeys → sumAtKey (idxs.foldl (placeJob dispoF planKeys) g) k = sumAtKey g k) := by
  induction idxs with
  | nil => intro g k _; exact ⟨le_max_left _ _, le_refl _, fun _ => rfl⟩
  | cons i idxs ih =>
    intro g k hlt
    rw [List.foldl_cons]
    have hi : i < g.length := hlt i (List.mem_cons_self i idxs)
    obtain ⟨w1, w2, w3⟩ := weekFold_sums dispoF i planKeys g
      ((g.getD i default).2.prepTime - sumVals (g.getD i default).2.planification) k hi
    rw [← placeJob_eq_weekFold] at w1 w2 w3
    have hlen : (placeJob dispoF planKeys g i).length = g.length := by
      rw [placeJob_eq_weekFold, weekFold_fst_length]
    obtain ⟨h1, h2, h3⟩ := ih (placeJob dispoF planKeys g i) k
      (fun i2 hi2 => by rw [hlen]; exact hlt i2 (List.mem_cons_of_mem i hi2))
    refine ⟨le_trans h1 ?_, le_trans w2 h2, ?_⟩
    · exact max_le (le_trans w1 (le_refl _)) (le_max_right _ _)
    · intro hk
      rw [h3 hk, w3 hk]

theorem range_split (n j : Nat) (hj : j < n) :
    List.range n = List.range j ++ j :: (List.range (n - j - 1)).map (fun i => j + 1 + i) := by
  have hn : n = (j + 1) + (n - j - 1) := by omega
  rw [hn, List.range_add, List.range_succ]
  simp
  have h2 : j + 1 + (n - j - 1) - j - 1 = n - j - 1 := by omega
  rw [h2]

/-- Greedy placement of job `j` inside `phase2`: the future allocation grows by
exactly the placed remainder; a positive final remainder means every walked
week remained saturated; the past allocation entries are untouched. -/
theorem phase2_job (dispoF : WKey → Int) (planKeys : List WKey) (cur : Nat)
    (hkeys : ∀ k ∈ planKeys, keyIdxGeCur cur k = true)
    (g : Store) (j : Nat) (hj : j < g.length)
    (hnd : (((g.getD j default).2.planification).map Prod.fst).Nodup) :
    ∃ remf : Int,
      futureSum cur (((phase2 dispoF planKeys g).getD j default).2.planification) + remf =
        futureSum cur ((g.getD j default).2.planification) +
          ((g.getD j default).2.prepTime - sumVals (g.getD j default).2.planification) ∧
      remf ≤ (g.getD j default).2.prepTime - sumVals (g.getD j default).2.planification ∧
      (0 ≤ (g.getD j default).2.prepTime - sumVals (g.getD j default).2.planification →
        0 ≤ remf) ∧
      ((g.getD j default).2.prepTime - sumVals (g.getD j default).2.planification ≤ 0 →
        (phase2 dispoF planKeys g).getD j default = g.getD j default) ∧
      (0 < remf → ∀ k ∈ planKeys, dispoF k ≤ sumAtKey (phase2 dispoF planKeys g) k) ∧
      filterPast cur (((phase2 dispoF planKeys g).getD j default).2.planification) =
        filterPast cur ((g.getD j default).2.planification) := by
  rw [phase2, range_split g.length j hj, List.foldl_append, List.foldl_cons]
  set gA := (List.range j).foldl (placeJob dispoF planKeys) g with hgA
  have hAj : gA.getD j default = g.getD j default :=
    foldPlace_untouched dispoF planKeys (List.range j) j
      (by rw [List.mem_range]; omega) g
  have hAlen : gA.length = g.length := foldPlace_length dispoF planKeys (List.range j) g
  set rem0 := (g.getD j default).2.prepTime - sumVals (g.getD j default).2.planification
    with hrem0
  have hplace : placeJob dispoF planKeys gA j = (weekFold dispoF j (gA, rem0) planKeys).1 := by
    rw [placeJob_eq_weekFold, hAj, ← hrem0]
  rw [hplace]
  set W := weekFold dispoF j (gA, rem0) planKeys with hW
  set post := (List.range (g.length - j - 1)).map (fun i => j + 1 + i) with hpost
  have hjpost : j ∉ post := by
    rw [hpost]
    intro hmem
    obtain ⟨i, -, hi⟩ := List.mem_map.mp hmem
    omega
  have hBj : (post.foldl (placeJob dispoF planKeys) W.1).getD j default = W.1.getD j default :=
    foldPlace_untouched dispoF planKeys post j hjpost W.1
  have hjA : j < gA.length := by omega
  obtain ⟨hf1, hf2, hf3⟩ := weekFold_future dispoF j cur planKeys hkeys gA rem0 hjA
    (by rw [hAj]; exact hnd)
  rw [← hW] at hf1 hf2 hf3
  obtain ⟨hr1, hr2, hr3⟩ := weekFold_rem dispoF j planKeys gA rem0
  rw [← hW] at hr1 hr2 hr3
  have hWlen : W.1.length = g.length := by
    rw [hW, weekFold_fst_length]
    simpa using hAlen
  refine ⟨W.2, ?_, hr1, hr3, ?_, ?_, ?_⟩
  · rw [hBj, hf1, hAj]
  · intro h0
    rw [hBj]
    rw [hr2 h0]
    simp only
    exact hAj
  · intro hpos k hk
    have hsat : dispoF k ≤ sumAtKey W.1 k := by
      have := weekFold_saturate dispoF j planKeys gA rem0 hjA
      rw [← hW] at this
      exact this hpos k hk
    refine le_trans hsat ?_
    exact (foldPlace_sums dispoF planKeys post W.1 k
      (fun i hi => by
        rw [hWlen]
        obtain ⟨i2, hi2, hieq⟩ := List.mem_map.mp (hpost ▸ hi)
        rw [List.mem_range] at hi2
        omega)).2.1
  · rw [hBj, hf3, hAj]

/-! ## Claim C10 plumbing: a resource's job group through the whole run -/

theorem filter_congr_pointwise (p : String × Chantier → Bool) :
    ∀ (l l' : Store), l'.length = l.length →
      (∀ i, i < l.length → p (l'.getD i default) = p (l.getD i default) ∧
        (p (l.getD i default) = true → l'.getD i default = l.getD i default)) →
      l'.filter p = l.filter p := by
  intro l
  induction l with
  | nil =>
    intro l' hlen _
    have : l' = [] := List.length_eq_zero.mp hlen
    rw [this]
  | cons x xs ih =>
    intro l' hlen hpt
    cases l' with
    | nil => simp at hlen
    | cons y ys =>
      have h0 := hpt 0 (by simp)
      simp only [List.getD_cons_zero] at h0
      have htail : ∀ i, i < xs.length →
          p (ys.getD i default) = p (xs.getD i default) ∧
          (p (xs.getD i default) = true → ys.getD i default = xs.getD i default) := by
        intro i hi
        have := hpt (i + 1) (by simp only [List.length_cons]; omega)
        simpa [List.getD_cons_succ] using this
      have hlen' : ys.length = xs.length := by simpa using hlen
      by_cases hx : p x = true
      · rw [h0.2 hx, List.filter_cons, List.filter_cons, if_pos hx, ih ys hlen' htail,
          if_pos hx]
      · rw [List.filter_cons, List.filter_cons, if_neg hx,
          if_neg (by rw [h0.1]; exact hx), ih ys hlen' htail]

theorem ownedBy_false_of_other {n m : String} (hne : m ≠ n) (q : String × Chantier)
    (h : ownedBy n q = true) : ownedBy m q = false := by
  rw [ownedBy] at h ⊢
  rw [Bool.and_eq_true] at h
  obtain ⟨h1, h2⟩ := h
  rw [beq_iff_eq] at h1
  simp only [Bool.and_eq_false_iff]
  left
  rw [h1]
  rw [beq_eq_false_iff_ne]
  intro hc
  exact hne (Option.some.inj hc).symm

theorem processResource_filter_ne (cur : Nat) (planKeys : List WKey) (st : Store)
    (nd : String × List (WKey × Avail)) (n : String) (hnd : (st.map Prod.fst).Nodup)
    (hne : nd.1 ≠ n) :
    (processResource cur planKeys st nd).filter (ownedBy n) = st.filter (ownedBy n) := by
  obtain ⟨hfst, hrec⟩ := processResource_char cur planKeys st nd hnd
  refine filter_congr_pointwise (ownedBy n) st (processResource cur planKeys st nd)
    (processResource_length cur planKeys st nd hnd) ?_
  intro i hi
  obtain ⟨hfr, hun⟩ := hrec i hi
  refine ⟨ownedBy_congr hfr, ?_⟩
  intro hown
  exact hun (ownedBy_false_of_other hne _ hown)

theorem foldPR_filter_ne (cur : Nat) (planKeys : List WKey) (n : String) (ds : DataStore) :
    ∀ st : Store, (st.map Prod.fst).Nodup → (∀ nd ∈ ds, nd.1 ≠ n) →
      (ds.foldl (processResource cur planKeys) st).filter (ownedBy n) =
        st.filter (ownedBy n) := by
  induction ds with
  | nil => intro st _ _; rfl
  | cons nd ds ih =>
    intro st hnd hne
    rw [List.foldl_cons]
    have hnd1 : ((processResource cur planKeys st nd).map Prod.fst).Nodup := by
      rw [(processResource_char cur planKeys st nd hnd).1]; exact hnd
    rw [ih _ hnd1 (fun e he => hne e (List.mem_cons_of_mem nd he)),
      processResource_filter_ne cur planKeys st nd n hnd (hne nd (List.mem_cons_self nd ds))]

theorem find?_eq_of_mem_nodup {κ α : Type} [DecidableEq κ] {m : List (κ × α)}
    (hnd : (m.map Prod.fst).Nodup) {q : κ × α} (hq : q ∈ m) :
    m.find? (fun p => p.1 = q.1) = some q := by
  cases hfind : m.find? (fun p => p.1 = q.1) with
  | none =>
    exfalso
    have := List.find?_eq_none.mp hfind q hq
    simp at this
  | some p =>
    have hpmem : p ∈ m := List.mem_of_find?_eq_some hfind
    have hp1 : p.1 = q.1 := by
      have := List.find?_some hfind
      simpa using this
    rw [entry_unique hnd hpmem hq hp1]

theorem sumAtKey_perm {g g' : Store} (h : g.Perm g') (k : WKey) :
    sumAtKey g k = sumAtKey g' k := by
  rw [sumAtKey_eq_sum, sumAtKey_eq_sum]
  exact (h.map _).sum_eq

theorem sumAtKey_resetPast_zero (cur : Nat) (k : WKey) (hk : keyIdxGeCur cur k = true) :
    ∀ l : Store, sumAtKey (l.map (fun p => (p.1, resetPast cur p.2))) k = 0 := by
  intro l
  induction l with
  | nil => rfl
  | cons p l ih =>
    rw [List.map_cons, sumAtKey_eq_sum, List.map_cons, List.sum_cons, ← sumAtKey_eq_sum, ih]
    have hz : planAt (resetPast cur p.2) k = 0 := by
      rw [planAt, resetPast]
      simp only
      rw [filterPast, alGet_filter_keyPred, keyIdxLt_false_of_ge hk]
      simp
    simp only [hz]
    ring

theorem phase2_cap (dispoF : WKey → Int) (planKeys : List WKey) (g : Store) (k : WKey)
    (h0 : sumAtKey g k = 0) (hd : 0 ≤ dispoF k) :
    sumAtKey (phase2 dispoF planKeys g) k ≤ dispoF k := by
  have hb := (foldPlace_sums dispoF planKeys (List.range g.length) g k
    (fun i hi => List.mem_range.mp hi)).1
  rw [phase2]
  rw [h0] at hb
  exact le_trans hb (by rw [max_eq_right hd])

theorem dispoOf_nonneg (avail : List (WKey × Avail)) (k : WKey)
    (hpos : ∀ e ∈ avail, 0 ≤ availMinutes e.2) : 0 ≤ dispoOf avail k := by
  rw [dispoOf]
  cases hget : alGet avail k with
  | none => simp
  | some v =>
    rw [alGet] at hget
    obtain ⟨e, he, hev⟩ := Option.map_eq_some'.mp hget
    exact hev ▸ hpos e (List.mem_of_find?_eq_some he)

theorem data_split {data : DataStore} {nd : String × List (WKey × Avail)}
    (hmem : nd ∈ data) (hnd : (data.map Prod.fst).Nodup) :
    ∃ pre post, data = pre ++ nd :: post ∧
      (∀ e ∈ pre, e.1 ≠ nd.1) ∧ (∀ e ∈ post, e.1 ≠ nd.1) := by
  obtain ⟨pre, post, rfl⟩ := List.append_of_mem hmem
  rw [List.map_append, List.map_cons, List.nodup_append] at hnd
  obtain ⟨-, hright, hdisj⟩ := hnd
  rw [List.nodup_cons] at hright
  refine ⟨pre, post, rfl, ?_, ?_⟩
  · intro e he hc
    exact hdisj (hc ▸ List.mem_map_of_mem Prod.fst he) (List.mem_cons_self _ _)
  · intro e he hc
    exact hright.1 (hc ▸ List.mem_map_of_mem Prod.fst he)

/-- The resource's own pass: afterwards, the store's records owned by that
resource are exactly (up to order) the group produced by the greedy placement
on the sorted, past-reset selection. -/
theorem processResource_self_filter (cur : Nat) (planKeys : List WKey) (st : Store)
    (nd : String × List (WKey × Avail)) (hnd : (st.map Prod.fst).Nodup) :
    List.Perm ((processResource cur planKeys st nd).filter (ownedBy nd.1))
      (phase2 (fun k => dispoOf nd.2 k) planKeys
        ((sortByKey (fun p => dateKey p.2.endDate) (st.filter (ownedBy nd.1))).map
          (fun p => (p.1, resetPast cur p.2)))) := by
  rw [processResource]
  set grp := st.filter (ownedBy nd.1) with hgrp
  set sorted := sortByKey (fun p => dateKey p.2.endDate) grp with hsorted
  set g1 := sorted.map (fun p => (p.1, resetPast cur p.2)) with hg1
  set g2 := phase2 (fun k => dispoOf nd.2 k) planKeys g1 with hg2
  have hperm : sorted.Perm grp := sortByKey_perm _ _
  by_cases hemp : sorted.isEmpty
  · rw [if_pos hemp]
    have hs : sorted = [] := List.isEmpty_iff.mp hemp
    have hgrpnil : grp = [] := (hs ▸ hperm).symm.eq_nil
    have hg2nil : g2 = [] := by
      rw [hg2, hg1, hs]
      rfl
    rw [← hgrp, hgrpnil, hg2nil]
  · rw [if_neg hemp]
    have hg1fst : g1.map Prod.fst = sorted.map Prod.fst := by
      rw [hg1, List.map_map]; rfl
    have hg2fst : g2.map Prod.fst = sorted.map Prod.fst := by
      rw [hg2, phase2_map_fst, hg1fst]
    have hsortnd : (sorted.map Prod.fst).Nodup := by
      refine (hperm.map Prod.fst).nodup_iff.mpr ?_
      exact ((List.filter_sublist st).map Prod.fst).nodup hnd
    have hg2nd : (g2.map Prod.fst).Nodup := hg2fst ▸ hsortnd
    have hsub : ∀ p ∈ g2, p.1 ∈ st.map Prod.fst := by
      intro p hp
      have h1 : p.1 ∈ g2.map Prod.fst := List.mem_map_of_mem Prod.fst hp
      rw [hg2fst] at h1
      have h2 : p.1 ∈ grp.map Prod.fst := (hperm.map Prod.fst).mem_iff.mp h1
      exact ((List.filter_sublist st).map Prod.fst).mem h2
    have hg2rec : ∀ q ∈ g2, ∃ r ∈ st, ownedBy nd.1 r = true ∧ q.1 = r.1 ∧
        frame q.2 = frame r.2 := by
      intro q hq
      obtain ⟨j, hj, hjq⟩ := List.mem_iff_getElem.mp hq
      have hjlen : j < g1.length := by
        have hp2 := phase2_length (fun k => dispoOf nd.2 k) planKeys g1
        rw [hg2] at hj
        omega
      have hjs : j < sorted.length := by
        rw [hg1] at hjlen
        simpa using hjlen
      obtain ⟨hfr, hfst⟩ := phase2_frame (fun k => dispoOf nd.2 k) planKeys g1 j
      rw [← hg2] at hfr hfst
      have hg1j : g1.getD j default =
          ((sorted.getD j default).1, resetPast cur (sorted.getD j default).2) :=
        getD_map_pair _ sorted j hjs
      have hq_eq : q = g2.getD j default := by
        rw [List.getD_eq_getElem _ _ hj, hjq]
      have hmem_s : sorted.getD j default ∈ sorted := getD_mem sorted j hjs
      have hmem_g : sorted.getD j default ∈ grp := hperm.mem_iff.mp hmem_s
      rw [hgrp, List.mem_filter] at hmem_g
      refine ⟨sorted.getD j default, hmem_g.1, hmem_g.2, ?_, ?_⟩
      · rw [hq_eq, hfst, hg1j]
      · rw [hq_eq, hfr, hg1j]
        exact frame_resetPast cur _
    have hlen : (writeBack st g2).length = st.length := writeBack_length g2 st hsub
    have d1 : ((writeBack st g2).filter (ownedBy nd.1)).Nodup := by
      refine List.Nodup.filter _ ?_
      refine List.Nodup.of_map Prod.fst ?_
      rw [writeBack_map_fst g2 st hsub]
      exact hnd
    have d2 : g2.Nodup := List.Nodup.of_map Prod.fst hg2nd
    refine (List.perm_ext_iff_of_nodup d1 d2).mpr ?_
    intro q
    constructor
    · intro hq
      rw [List.mem_filter] at hq
      obtain ⟨hmemq, hownq⟩ := hq
      obtain ⟨i, hilt, hqi⟩ := List.mem_iff_getElem.mp hmemq
      have hist : i < st.length := by omega
      have hgd : (writeBack st g2).getD i default = q := by
        rw [List.getD_eq_getElem _ _ hilt, hqi]
      rw [writeBack_getD g2 st hg2nd hsub i hist] at hgd
      cases hfind : g2.find? (fun p => p.1 = (st.getD i default).1) with
      | some p =>
        rw [hfind] at hgd
        simp only [Option.getD_some] at hgd
        rw [← hgd]
        exact List.mem_of_find?_eq_some hfind
      | none =>
        exfalso
        rw [hfind] at hgd
        simp only [Option.getD_none] at hgd
        have hmem_grp : st.getD i default ∈ grp := by
          rw [hgrp, List.mem_filter]
          exact ⟨getD_mem st i hist, by rw [hgd]; exact hownq⟩
        have hid : (st.getD i default).1 ∈ g2.map Prod.fst := by
          rw [hg2fst]
          exact (hperm.map Prod.fst).mem_iff.mpr (List.mem_map_of_mem Prod.fst hmem_grp)
        obtain ⟨p, hpmem, hp1⟩ := List.mem_map.mp hid
        have := List.find?_eq_none.mp hfind p hpmem
        simp only [decide_eq_true_eq] at this
        exact this hp1
    · intro hq
      obtain ⟨r, hrst, hrown, hqr, hqfr⟩ := hg2rec q hq
      have hownq : ownedBy nd.1 q = true := by
        rw [ownedBy_congr (a := q) (b := r) hqfr]
        exact hrown
      obtain ⟨i, hilt, hri⟩ := List.mem_iff_getElem.mp hrst
      have hri' : st.getD i default = r := by
        rw [List.getD_eq_getElem _ _ hilt, hri]
      have hpred : (fun p : String × Chantier => decide (p.1 = (st.getD i default).1)) =
          (fun p : String × Chantier => decide (p.1 = q.1)) := by
        funext p
        rw [hri', ← hqr]
      have hgd : (writeBack st g2).getD i default = q := by
        rw [writeBack_getD g2 st hg2nd hsub i hilt, hpred,
          find?_eq_of_mem_nodup hg2nd hq]
        rfl
      rw [List.mem_filter]
      refine ⟨?_, hownq⟩
      rw [← hgd]
      exact getD_mem _ i (by omega)

/-- The final cleanup (removing `tempsRestant`) changes neither ownership nor
any allocation sum. -/
theorem sumAtKey_filter_clean (st : Store) (n : String) (k : WKey) :
    sumAtKey ((st.map (fun p => (p.1, { p.2 with tempsRestant := none }))).filter
        (ownedBy n)) k =
      sumAtKey (st.filter (ownedBy n)) k := by
  rw [List.filter_map]
  have hpred : (ownedBy n) ∘
      (fun p : String × Chantier => (p.1, { p.2 with tempsRestant := none })) = ownedBy n := by
    funext p
    rfl
  rw [hpred, sumAtKey_eq_sum, sumAtKey_eq_sum, List.map_map]
  congr 1

/-- Locating a resource's group in the full run: the allocation sums of the
jobs owned by resource `n` after reallocation are those of the greedy pass run
on `n`'s sorted, past-reset selection of the deprogrammed store. -/
theorem repartition_group_sum (today : Nat) (ch : Store) (data : DataStore) (cur : Nat)
    (hcur : currentWeekIdx? today = some cur)
    (hids : (ch.map Prod.fst).Nodup) (hnames : (data.map Prod.fst).Nodup)
    (n : String) (avail : List (WKey × Avail)) (hmem : (n, avail) ∈ data) (k : WKey) :
    sumAtKey ((repartitionAutomatique today ch data).filter (ownedBy n)) k =
      sumAtKey (phase2 (fun k2 => dispoOf avail k2) ((weeks.drop cur).map weekKeyOf)
        ((sortByKey (fun p => dateKey p.2.endDate)
            ((ch.map (fun p => (p.1, deprog cur p.2))).filter (ownedBy n))).map
          (fun p => (p.1, resetPast cur p.2)))) k := by
  have hrun : repartitionAutomatique today ch data =
      (data.foldl (processResource cur ((weeks.drop cur).map weekKeyOf))
        (ch.map (fun p => (p.1, deprog cur p.2)))).map
        (fun p => (p.1, { p.2 with tempsRestant := none })) := by
    rw [repartitionAutomatique, hcur]
  rw [hrun]
  set planKeys := (weeks.drop cur).map weekKeyOf with hpk
  set st1 := ch.map (fun p => (p.1, deprog cur p.2)) with hst1
  have hst1fst : st1.map Prod.fst = ch.map Prod.fst := by
    rw [hst1, List.map_map]; rfl
  have hst1nd : (st1.map Prod.fst).Nodup := by rw [hst1fst]; exact hids
  obtain ⟨pre, post, hsplit, hpre, hpost⟩ := data_split hmem hnames
  rw [hsplit, List.foldl_append, List.foldl_cons]
  set stPre := pre.foldl (processResource cur planKeys) st1 with hstPre
  have hPreNd : (stPre.map Prod.fst).Nodup := by
    rw [hstPre, (foldPR_char cur planKeys pre st1 hst1nd).1]
    exact hst1nd
  have hfiltPre : stPre.filter (ownedBy n) = st1.filter (ownedBy n) := by
    rw [hstPre]
    exact foldPR_filter_ne cur planKeys n pre st1 hst1nd (fun e he => hpre e he)
  set stN := processResource cur planKeys stPre (n, avail) with hstN
  have hNnd : (stN.map Prod.fst).Nodup := by
    rw [hstN, (processResource_char cur planKeys stPre (n, avail) hPreNd).1]
    exact hPreNd
  rw [sumAtKey_filter_clean]
  rw [foldPR_filter_ne cur planKeys n post stN hNnd (fun e he => hpost e he)]
  have hperm := processResource_self_filter cur planKeys stPre (n, avail) hPreNd
  dsimp only at hperm
  rw [hstN, sumAtKey_perm hperm k, hfiltPre]

/-- C10: after a successful reallocation (a current week exists), for every
resource present in the availability store — stored minutes being nonnegative —
and every calendar week at or after the current one, the sum over that
resource's active jobs of their allocation at that week does not exceed the
week's availability in minutes: future allocations are rebuilt from zero and
each placement is capped by the remaining free capacity. -/
theorem C10_capacity (today : Nat) (ch : Store) (data : DataStore) (cur : Nat)
    (hcur : currentWeekIdx? today = some cur)
    (hids : (ch.map Prod.fst).Nodup) (hnames : (data.map Prod.fst).Nodup)
    (n : String) (avail : List (WKey × Avail)) (hmem : (n, avail) ∈ data)
    (hpos : ∀ e ∈ avail, 0 ≤ availMinutes e.2)
    (i : Nat) (hcuri : cur ≤ i) (hi : i < weeks.length) :
    sumAtKey ((repartitionAutomatique today ch data).filter (ownedBy n))
        (weekKeyOf (weeks.getD i default)) ≤
      dispoOf avail (weekKeyOf (weeks.getD i default)) := by
  set k := weekKeyOf (weeks.getD i default) with hk
  have hkmem : k ∈ (weeks.drop cur).map weekKeyOf := by
    rw [hk, List.mem_map]
    refine ⟨weeks.getD i default, ?_, rfl⟩
    rw [List.getD_eq_getElem _ _ hi]
    apply List.mem_iff_getElem?.mpr
    refine ⟨i - cur, ?_⟩
    rw [List.getElem?_drop]
    have hadd : cur + (i - cur) = i := by omega
    rw [hadd]
    exact List.getElem?_eq_getElem hi
  have hkge : keyIdxGeCur cur k = true := planKeys_future cur k hkmem
  rw [repartition_group_sum today ch data cur hcur hids hnames n avail hmem k]
  refine phase2_cap _ _ _ k ?_ (dispoOf_nonneg avail k hpos)
  exact sumAtKey_resetPast_zero cur k hkge _

set_option maxRecDepth 100000 in
theorem C10_witness :
    currentWeekIdx? 3253 = some 256 ∧
    sumAtKey ((repartitionAutomatique 3253
        [("J1", { status := "Nouveau", preparateur := some "A", prepTime := 5000,
                  endDate := (8, 12, 2028), planification := [] })]
        [("A", [((2028, 48), Avail.obj 2400)])]).filter (ownedBy "A"))
        (weekKeyOf (weeks.getD 256 default)) ≤
      dispoOf [((2028, 48), Avail.obj 2400)] (weekKeyOf (weeks.getD 256 default)) :=
  ⟨by decide,
    C10_capacity 3253
      [("J1", { status := "Nouveau", preparateur := some "A", prepTime := 5000,
                endDate := (8, 12, 2028), planification := [] })]
      [("A", [((2028, 48), Avail.obj 2400)])] 256 (by decide) (by decide) (by decide)
      "A" [((2028, 48), Avail.obj 2400)] (by decide) (by decide) 256 (by decide) (by decide)⟩

/-! ## Claim C2 plumbing: one job's record through the whole run -/

theorem keyIdxGe_false_of_lt {cur : Nat} {k : WKey} (h : keyIdxLtCur cur k = true) :
    keyIdxGeCur cur k = false := by
  rw [keyIdxLtCur] at h
  rw [keyIdxGeCur]
  cases hw : weekIdxLast k with
  | none => rfl
  | some j =>
    rw [hw] at h
    simp at h ⊢
    omega

theorem futureSum_filterPast_zero (cur : Nat) (p : List (WKey × Int)) :
    futureSum cur (filterPast cur p) = 0 := by
  rw [futureSum, filterPast]
  induction p with
  | nil => rfl
  | cons e p ih =>
    rw [List.filter_cons]
    by_cases he : keyIdxLtCur cur e.1 = true
    · rw [if_pos he, List.filter_cons, keyIdxGe_false_of_lt he]
      simpa using ih
    · rw [if_neg he]
      exact ih

theorem filterPast_idem (cur : Nat) (p : List (WKey × Int)) :
    filterPast cur (filterPast cur p) = filterPast cur p := by
  rw [filterPast, filterPast, List.filter_filter]
  exact List.filter_congr (fun e _ => by cases h : keyIdxLtCur cur e.1 <;> simp [h])

theorem deprog_active (cur : Nat) (ch : Chantier) (h : isActive ch.status = true) :
    deprog cur ch = ch := by
  simp [deprog, h]

theorem freeCap_congr (cur : Nat) (avail : List (WKey × Avail)) (g g' : Store)
    (h : ∀ k, sumAtKey g k = sumAtKey g' k) : freeCap cur avail g = freeCap cur avail g' := by
  rw [freeCap, freeCap]
  have hfold : ∀ (l : List WKey) (a : Int),
      l.foldl (fun s k => s + max 0 (dispoOf avail k - sumAtKey g k)) a =
        l.foldl (fun s k => s + max 0 (dispoOf avail k - sumAtKey g' k)) a := by
    intro l
    induction l with
    | nil => intro a; rfl
    | cons k l ih =>
      intro a
      rw [List.foldl_cons, List.foldl_cons, h k, ih]
  exact hfold _ 0

theorem freeCap_zero (cur : Nat) (avail : List (WKey × Avail)) (g : Store)
    (hsat : ∀ k ∈ (weeks.drop cur).map weekKeyOf, dispoOf avail k ≤ sumAtKey g k) :
    freeCap cur avail g = 0 := by
  rw [freeCap]
  have hfold : ∀ l : List WKey, (∀ k ∈ l, dispoOf avail k ≤ sumAtKey g k) →
      ∀ a : Int, l.foldl (fun s k => s + max 0 (dispoOf avail k - sumAtKey g k)) a = a := by
    intro l
    induction l with
    | nil => intro _ a; rfl
    | cons k l ih =>
      intro hl a
      rw [List.foldl_cons]
      have hz : max 0 (dispoOf avail k - sumAtKey g k) = 0 := by
        have := hl k (List.mem_cons_self k l)
        omega
      rw [hz, ih (fun k2 hk2 => hl k2 (List.mem_cons_of_mem k hk2))]
      ring_nf
  exact hfold _ hsat 0

/-- Positional form of the resource's own pass: an owned job's record lands at
its store position as the corresponding greedy-pass output record. -/
theorem processResource_self_getD (cur : Nat) (planKeys : List WKey) (st : Store)
    (nd : String × List (WKey × Avail)) (hnd : (st.map Prod.fst).Nodup)
    (i : Nat) (hi : i < st.length)
    (j : Nat)
    (hj : j < (sortByKey (fun p => dateKey p.2.endDate) (st.filter (ownedBy nd.1))).length)
    (hjrec : (sortByKey (fun p => dateKey p.2.endDate)
        (st.filter (ownedBy nd.1))).getD j default = st.getD i default) :
    (processResource cur planKeys st nd).getD i default =
      (phase2 (fun k => dispoOf nd.2 k) planKeys
        ((sortByKey (fun p => dateKey p.2.endDate) (st.filter (ownedBy nd.1))).map
          (fun p => (p.1, resetPast cur p.2)))).getD j default := by
  rw [processResource]
  set grp := st.filter (ownedBy nd.1) with hgrp
  set sorted := sortByKey (fun p => dateKey p.2.endDate) grp with hsorted
  set g1 := sorted.map (fun p => (p.1, resetPast cur p.2)) with hg1
  set g2 := phase2 (fun k => dispoOf nd.2 k) planKeys g1 with hg2
  have hperm : sorted.Perm grp := sortByKey_perm _ _
  have hemp : ¬sorted.isEmpty := by
    intro hcon
    have := List.isEmpty_iff.mp hcon
    rw [this] at hj
    simp at hj
  rw [if_neg hemp]
  have hg1fst : g1.map Prod.fst = sorted.map Prod.fst := by
    rw [hg1, List.map_map]; rfl
  have hg2fst : g2.map Prod.fst = sorted.map Prod.fst := by
    rw [hg2, phase2_map_fst, hg1fst]
  have hsortnd : (sorted.map Prod.fst).Nodup := by
    refine (hperm.map Prod.fst).nodup_iff.mpr ?_
    exact ((List.filter_sublist st).map Prod.fst).nodup hnd
  have hg2nd : (g2.map Prod.fst).Nodup := hg2fst ▸ hsortnd
  have hsub : ∀ p ∈ g2, p.1 ∈ st.map Prod.fst := by
    intro p hp
    have h1 : p.1 ∈ g2.map Prod.fst := List.mem_map_of_mem Prod.fst hp
    rw [hg2fst] at h1
    have h2 : p.1 ∈ grp.map Prod.fst := (hperm.map Prod.fst).mem_iff.mp h1
    exact ((List.filter_sublist st).map Prod.fst).mem h2
  have hjg1 : j < g1.length := by
    rw [hg1, List.length_map]; exact hj
  have hjg2 : j < g2.length := by
    rw [hg2, phase2_length]; exact hjg1
  have hg1j : g1.getD j default =
      ((sorted.getD j default).1, resetPast cur (sorted.getD j default).2) :=
    getD_map_pair _ sorted j hj
  have hid : (g2.getD j default).1 = (st.getD i default).1 := by
    rw [(phase2_frame (fun k => dispoOf nd.2 k) planKeys g1 j).2]
    rw [← hg2] at *
    rw [hg1j, hjrec]
  have hmemg2 : g2.getD j default ∈ g2 := getD_mem g2 j hjg2
  have hpred : (fun p : String × Chantier => decide (p.1 = (st.getD i default).1)) =
      (fun p : String × Chantier => decide (p.1 = (g2.getD j default).1)) := by
    funext p
    rw [hid]
  rw [writeBack_getD g2 st hg2nd hsub i hi, hpred,
    find?_eq_of_mem_nodup hg2nd hmemg2]
  rfl

/-- C2: conservation.  After reallocation, for every active job owned by a
resource of the availability store, its past allocation entries are unchanged
and the sum of its allocation entries for weeks at or after the current week
is at most `max 0 (prepTime − pastSum)`, with equality whenever the resource's
total remaining free capacity from the current week to the calendar end covers
that remainder. -/
theorem C2_conservation (today : Nat) (ch : Store) (data : DataStore) (cur : Nat)
    (hcur : currentWeekIdx? today = some cur)
    (hids : (ch.map Prod.fst).Nodup) (hnames : (data.map Prod.fst).Nodup)
    (n : String) (avail : List (WKey × Avail)) (hmem : (n, avail) ∈ data)
    (i : Nat) (hi : i < ch.length)
    (hown : ownedBy n (ch.getD i default) = true)
    (hpnd : (((ch.getD i default).2.planification).map Prod.fst).Nodup) :
    filterPast cur ((repartitionAutomatique today ch data).getD i default).2.planification =
      filterPast cur (ch.getD i default).2.planification ∧
    futureSum cur ((repartitionAutomatique today ch data).getD i default).2.planification ≤
      max 0 ((ch.getD i default).2.prepTime -
        pastSum cur (ch.getD i default).2.planification) ∧
    (max 0 ((ch.getD i default).2.prepTime -
        pastSum cur (ch.getD i default).2.planification) ≤
        freeCap cur avail ((repartitionAutomatique today ch data).filter (ownedBy n)) →
      futureSum cur ((repartitionAutomatique today ch data).getD i default).2.planification =
        max 0 ((ch.getD i default).2.prepTime -
          pastSum cur (ch.getD i default).2.planification)) := by
  have hrun : repartitionAutomatique today ch data =
      (data.foldl (processResource cur ((weeks.drop cur).map weekKeyOf))
        (ch.map (fun p => (p.1, deprog cur p.2)))).map
        (fun p => (p.1, { p.2 with tempsRestant := none })) := by
    rw [repartitionAutomatique, hcur]
  set planKeys := (weeks.drop cur).map weekKeyOf with hpk
  set st1 := ch.map (fun p => (p.1, deprog cur p.2)) with hst1
  have hactive : isActive (ch.getD i default).2.status = true := by
    rw [ownedBy, Bool.and_eq_true] at hown
    exact hown.2
  have hst1i : st1.getD i default = ch.getD i default := by
    rw [hst1, getD_map_pair _ ch i hi, deprog_active cur _ hactive]
  have hst1fst : st1.map Prod.fst = ch.map Prod.fst := by
    rw [hst1, List.map_map]; rfl
  have hst1nd : (st1.map Prod.fst).Nodup := by rw [hst1fst]; exact hids
  have hst1len : st1.length = ch.length := by rw [hst1, List.length_map]
  obtain ⟨pre, post, hsplit, hpre, hpost⟩ := data_split hmem hnames
  set stPre := pre.foldl (processResource cur planKeys) st1 with hstPre
  have hPreNd : (stPre.map Prod.fst).Nodup := by
    rw [hstPre, (foldPR_char cur planKeys pre st1 hst1nd).1]
    exact hst1nd
  have hPrelen : stPre.length = st1.length := by
    rw [hstPre]
    have := congrArg List.length (foldPR_char cur planKeys pre st1 hst1nd).1
    simpa using this
  have hPrei : stPre.getD i default = ch.getD i default := by
    rw [hstPre]
    have h := ((foldPR_char cur planKeys pre st1 hst1nd).2 i (by omega)).2
    rw [hst1i] at h
    rw [h (fun nd hnd2 => ownedBy_false_of_other (hpre nd hnd2) _ hown)]
  have hfiltPre : stPre.filter (ownedBy n) = st1.filter (ownedBy n) := by
    rw [hstPre]
    exact foldPR_filter_ne cur planKeys n pre st1 hst1nd (fun e he => hpre e he)
  have hgrpmem : stPre.getD i default ∈ stPre.filter (ownedBy n) := by
    rw [List.mem_filter]
    exact ⟨getD_mem stPre i (by omega), by rw [hPrei]; exact hown⟩
  have hperm : (sortByKey (fun p => dateKey p.2.endDate) (stPre.filter (ownedBy n))).Perm
      (stPre.filter (ownedBy n)) := sortByKey_perm _ _
  have hsortmem : stPre.getD i default ∈
      sortByKey (fun p => dateKey p.2.endDate) (stPre.filter (ownedBy n)) :=
    hperm.mem_iff.mpr hgrpmem
  obtain ⟨j, hj, hjrec⟩ := List.mem_iff_getElem.mp hsortmem
  have hjrec' : (sortByKey (fun p => dateKey p.2.endDate) (stPre.filter (ownedBy n))).getD j
      default = stPre.getD i default := by
    rw [List.getD_eq_getElem _ _ hj, hjrec]
  set g1 := (sortByKey (fun p => dateKey p.2.endDate) (stPre.filter (ownedBy n))).map
      (fun p => (p.1, resetPast cur p.2)) with hg1
  set g2 := phase2 (fun k => dispoOf avail k) planKeys g1 with hg2
  set stN := processResource cur planKeys stPre (n, avail) with hstN
  have hNi : stN.getD i default = g2.getD j default := by
    rw [hstN, hg2, hg1]
    exact processResource_self_getD cur planKeys stPre (n, avail) hPreNd i (by omega) j hj hjrec'
  have hjg1 : j < g1.length := by rw [hg1, List.length_map]; exact hj
  have hg1j : g1.getD j default =
      ((stPre.getD i default).1, resetPast cur (stPre.getD i default).2) := by
    rw [hg1, getD_map_pair _ _ j hj, hjrec']
  have hplan1 : (g1.getD j default).2.planification =
      filterPast cur (ch.getD i default).2.planification := by
    rw [hg1j, hPrei]
    rfl
  have hprep1 : (g1.getD j default).2.prepTime = (ch.getD i default).2.prepTime := by
    rw [hg1j, hPrei]
    rfl
  have hsum1 : sumVals (g1.getD j default).2.planification =
      pastSum cur (ch.getD i default).2.planification := by
    rw [hplan1, pastSum]
  have hfut1 : futureSum cur (g1.getD j default).2.planification = 0 := by
    rw [hplan1]
    exact futureSum_filterPast_zero cur _
  have hnd1 : (((g1.getD j default).2.planification).map Prod.fst).Nodup := by
    rw [hplan1, filterPast]
    exact ((List.filter_sublist _).map Prod.fst).nodup hpnd
  obtain ⟨remf, hA, hB, hC, hD, hE, hF⟩ := phase2_job (fun k => dispoOf avail k) planKeys cur
    (fun k hk => planKeys_future cur k hk) g1 j hjg1 hnd1
  rw [← hg2] at hA hD hE hF
  have hNnd : (stN.map Prod.fst).Nodup := by
    rw [hstN, (processResource_char cur planKeys stPre (n, avail) hPreNd).1]
    exact hPreNd
  have hNlen : stN.length = stPre.length := by
    rw [hstN]
    exact processResource_length cur planKeys stPre (n, avail) hPreNd
  have hNownQ : ownedBy n (stN.getD i default) = true := by
    have hfr := ((processResource_char cur planKeys stPre (n, avail) hPreNd).2 i (by omega)).1
    rw [← hstN] at hfr
    rw [ownedBy_congr (a := stN.getD i default) (b := stPre.getD i default) hfr, hPrei]
    exact hown
  set st2 := post.foldl (processResource cur planKeys) stN with hst2
  have hst2len : st2.length = stN.length := by
    rw [hst2]
    have := congrArg List.length (foldPR_char cur planKeys post stN hNnd).1
    simpa using this
  have hPosti : st2.getD i default = stN.getD i default := by
    rw [hst2]
    have h := ((foldPR_char cur planKeys post stN hNnd).2 i (by omega)).2
    exact h (fun nd hnd2 => ownedBy_false_of_other (hpost nd hnd2) _ hNownQ)
  have hfinali : (repartitionAutomatique today ch data).getD i default =
      ((st2.getD i default).1, { (st2.getD i default).2 with tempsRestant := none }) := by
    rw [hrun, hsplit, List.foldl_append, List.foldl_cons, ← hstPre, ← hstN, ← hst2]
    exact getD_map_pair (fun c => { c with tempsRestant := none }) st2 i (by omega)
  have hplanfinal : ((repartitionAutomatique today ch data).getD i default).2.planification =
      (g2.getD j default).2.planification := by
    rw [hfinali, hPosti, hNi]
  have hsumfinal : ∀ k, sumAtKey ((repartitionAutomatique today ch data).filter (ownedBy n)) k =
      sumAtKey g2 k := by
    intro k
    rw [hg2, hg1, hfiltPre, hst1]
    exact repartition_group_sum today ch data cur hcur hids hnames n avail hmem k
  have hfc : freeCap cur avail ((repartitionAutomatique today ch data).filter (ownedBy n)) =
      freeCap cur avail g2 := freeCap_congr cur avail _ _ hsumfinal
  rw [hfut1, hprep1, hsum1] at hA
  rw [hprep1, hsum1] at hB hC hD
  refine ⟨?_, ?_, ?_⟩
  · rw [hplanfinal, hF, hplan1]
    exact filterPast_idem cur _
  · rw [hplanfinal]
    by_cases hle : (ch.getD i default).2.prepTime -
        pastSum cur (ch.getD i default).2.planification ≤ 0
    · rw [hD hle, hfut1]
      omega
    · omega
  · intro hfree
    rw [hplanfinal]
    rw [hfc] at hfree
    by_cases hle : (ch.getD i default).2.prepTime -
        pastSum cur (ch.getD i default).2.planification ≤ 0
    · rw [hD hle, hfut1]
      omega
    · by_cases hremf : 0 < remf
      · exfalso
        have h0 : freeCap cur avail g2 = 0 :=
          freeCap_zero cur avail g2 (fun k hk => hE hremf k hk)
        rw [h0] at hfree
        omega
      · omega

set_option maxRecDepth 100000 in
theorem C2_witness :
    currentWeekIdx? 3253 = some 256 ∧
    (filterPast 256 ((repartitionAutomatique 3253 [("J1", { status := "Nouveau", preparateur := some "A", prepTime := 5000, endDate := (8, 12, 2028), planification := [] })] [("A", [((2028, 48), Avail.obj 2400)])]).getD 0 default).2.planification =
      filterPast 256 (([("J1", ({ status := "Nouveau", preparateur := some "A", prepTime := 5000, endDate := (8, 12, 2028), planification := [] } : Chantier))] : Store).getD 0 default).2.planification ∧
    futureSum 256 ((repartitionAutomatique 3253 [("J1", { status := "Nouveau", preparateur := some "A", prepTime := 5000, endDate := (8, 12, 2028), planification := [] })] [("A", [((2028, 48), Avail.obj 2400)])]).getD 0 default).2.planification ≤
      max 0 ((([("J1", ({ status := "Nouveau", preparateur := some "A", prepTime := 5000, endDate := (8, 12, 2028), planification := [] } : Chantier))] : Store).getD 0 default).2.prepTime - pastSum 256 (([("J1", ({ status := "Nouveau", preparateur := some "A", prepTime := 5000, endDate := (8, 12, 2028), planification := [] } : Chantier))] : Store).getD 0 default).2.planification) ∧
    (max 0 ((([("J1", ({ status := "Nouveau", preparateur := some "A", prepTime := 5000, endDate := (8, 12, 2028), planification := [] } : Chantier))] : Store).getD 0 default).2.prepTime - pastSum 256 (([("J1", ({ status := "Nouveau", preparateur := some "A", prepTime := 5000, endDate := (8, 12, 2028), planification := [] } : Chantier))] : Store).getD 0 default).2.planification) ≤
        freeCap 256 [((2028, 48), Avail.obj 2400)] ((repartitionAutomatique 3253 [("J1", { status := "Nouveau", preparateur := some "A", prepTime := 5000, endDate := (8, 12, 2028), planification := [] })] [("A", [((2028, 48), Avail.obj 2400)])]).filter (ownedBy "A")) →
      futureSum 256 ((repartitionAutomatique 3253 [("J1", { status := "Nouveau", preparateur := some "A", prepTime := 5000, endDate := (8, 12, 2028), planification := [] })] [("A", [((2028, 48), Avail.obj 2400)])]).getD 0 default).2.planification =
        max 0 ((([("J1", ({ status := "Nouveau", preparateur := some "A", prepTime := 5000, endDate := (8, 12, 2028), planification := [] } : Chantier))] : Store).getD 0 default).2.prepTime - pastSum 256 (([("J1", ({ status := "Nouveau", preparateur := some "A", prepTime := 5000, endDate := (8, 12, 2028), planification := [] } : Chantier))] : Store).getD 0 default).2.planification))) :=
  ⟨by decide,
    C2_conservation 3253 [("J1", { status := "Nouveau", preparateur := some "A", prepTime := 5000, endDate := (8, 12, 2028), planification := [] })]
      [("A", [((2028, 48), Avail.obj 2400)])] 256 (by decide) (by decide) (by decide)
      "A" [((2028, 48), Avail.obj 2400)] (by decide) 0 (by decide) (by decide) (by decide)⟩

/-! ## Claim C6 plumbing: the window-minimum pass -/

theorem pass2_eq_fold (m : List (WKey × Marge)) (keys : List WKey) :
    pass2 m keys = (List.range keys.length).foldl (pass2Step keys) m := rfl

theorem pass2step_cases (keys : List WKey) (m : List (WKey × Marge)) (idx : Nat) :
    pass2Step keys m idx = m ∨
    ∃ mg mm, alGet m (keys.getD idx default) = some mg ∧
      windowMinM m keys idx = some mm ∧
      pass2Step keys m idx = alSet m (keys.getD idx default) { mg with Tdisp := some mm } := by
  rw [pass2Step]
  cases hg : alGet m (keys.getD idx default) with
  | none => left; rfl
  | some mg =>
    cases hmm : windowMinM m keys idx with
    | none => left; rfl
    | some mm =>
      right
      exact ⟨mg, mm, rfl, rfl, rfl⟩

theorem pass2fold_reads (keys : List WKey) (idxs : List Nat) :
    ∀ m : List (WKey × Marge),
      (∀ k, ((alGet (idxs.foldl (pass2Step keys) m) k).getD default).M =
        ((alGet m k).getD default).M) ∧
      (∀ k, (alGet (idxs.foldl (pass2Step keys) m) k).isSome = (alGet m k).isSome) ∧
      (∀ k, (∀ j ∈ idxs, keys.getD j default ≠ k) →
        alGet (idxs.foldl (pass2Step keys) m) k = alGet m k) := by
  induction idxs with
  | nil => intro m; exact ⟨fun k => rfl, fun k => rfl, fun k _ => rfl⟩
  | cons j idxs ih =>
    intro m
    rw [List.foldl_cons]
    obtain ⟨ih1, ih2, ih3⟩ := ih (pass2Step keys m j)
    rcases pass2step_cases keys m j with heq | ⟨mg, mm, hg, hmm, heq⟩
    · rw [heq] at ih1 ih2 ih3 ⊢
      exact ⟨ih1, ih2, fun k hk => ih3 k (fun j2 hj2 => hk j2 (List.mem_cons_of_mem j hj2))⟩
    · refine ⟨?_, ?_, ?_⟩
      · intro k
        rw [ih1 k, heq]
        by_cases hkk : k = keys.getD j default
        · subst hkk
          rw [alGet_alSet_eq, hg]
          rfl
        · rw [alGet_alSet_ne _ _ _ _ hkk]
      · intro k
        rw [ih2 k, heq]
        by_cases hkk : k = keys.getD j default
        · subst hkk
          rw [alGet_alSet_eq, hg]
          rfl
        · rw [alGet_alSet_ne _ _ _ _ hkk]
      · intro k hk
        have hne : keys.getD j default ≠ k := hk j (List.mem_cons_self j idxs)
        rw [ih3 k (fun j2 hj2 => hk j2 (List.mem_cons_of_mem j hj2)), heq,
          alGet_alSet_ne _ _ _ _ (Ne.symm hne)]

theorem windowMinM_congr (m m' : List (WKey × Marge)) (keys : List WKey) (idx : Nat)
    (h : ∀ k, ((alGet m' k).getD default).M = ((alGet m k).getD default).M) :
    windowMinM m' keys idx = windowMinM m keys idx := by
  rw [windowMinM, windowMinM]
  generalize (keys.drop idx).take 16 = l
  have hfold : ∀ (l : List WKey) (acc : Option ℚ),
      l.foldl (fun acc k =>
        let mv := ((alGet m' k).getD default).M
        match acc with
        | none => some mv
        | some a => if mv < a then some mv else some a) acc =
      l.foldl (fun acc k =>
        let mv := ((alGet m k).getD default).M
        match acc with
        | none => some mv
        | some a => if mv < a then some mv else some a) acc := by
    intro l
    induction l with
    | nil => intro acc; rfl
    | cons k l ih =>
      intro acc
      rw [List.foldl_cons, List.foldl_cons, ih]
      congr 1
      simp only [h k]
  exact hfold l none

theorem windowfold_some (m : List (WKey × Marge)) :
    ∀ (l : List WKey) (a : ℚ), ∃ q : ℚ,
      l.foldl (fun acc k =>
        let mv := ((alGet m k).getD default).M
        match acc with
        | none => some mv
        | some a => if mv < a then some mv else some a) (some a) = some q := by
  intro l
  induction l with
  | nil => intro a; exact ⟨a, rfl⟩
  | cons k l ih =>
    intro a
    rw [List.foldl_cons]
    simp only
    by_cases hlt : ((alGet m k).getD default).M < a
    · rw [if_pos hlt]
      exact ih _
    · rw [if_neg hlt]
      exact ih _

theorem windowfold_le (m : List (WKey × Marge)) :
    ∀ (l : List WKey) (a q : ℚ),
      l.foldl (fun acc k =>
        let mv := ((alGet m k).getD default).M
        match acc with
        | none => some mv
        | some a => if mv < a then some mv else some a) (some a) = some q → q ≤ a := by
  intro l
  induction l with
  | nil =>
    intro a q h
    simp only [List.foldl_nil, Option.some.injEq] at h
    exact le_of_eq h.symm
  | cons k l ih =>
    intro a q h
    rw [List.foldl_cons] at h
    simp only at h
    by_cases hlt : ((alGet m k).getD default).M < a
    · rw [if_pos hlt] at h
      exact le_trans (ih _ q h) (le_of_lt hlt)
    · rw [if_neg hlt] at h
      exact ih _ q h

theorem windowMinM_head (m : List (WKey × Marge)) (keys : List WKey) (idx : Nat)
    (h : idx < keys.length) :
    ∃ q : ℚ, windowMinM m keys idx = some q ∧
      q ≤ ((alGet m (keys.getD idx default)).getD default).M := by
  rw [windowMinM]
  have hdrop : keys.drop idx = keys.getD idx default :: keys.drop (idx + 1) := by
    rw [List.getD_eq_getElem _ _ h]
    exact List.drop_eq_getElem_cons h
  rw [hdrop]
  have h16 : (16 : Nat) = 15 + 1 := rfl
  rw [h16, List.take_succ_cons, List.foldl_cons]
  simp only
  obtain ⟨q, hq⟩ := windowfold_some m ((keys.drop (idx + 1)).take 15)
    (((alGet m (keys.getD idx default)).getD default).M)
  exact ⟨q, hq, windowfold_le m _ _ q hq⟩

theorem badgeStep_cases (st : List (WKey × Marge) × Option ℚ) (key : WKey) :
    badgeStep st key = st ∨
    ∃ mg b l2, alGet st.1 key = some mg ∧
      badgeStep st key = (alSet st.1 key { mg with badge := b }, l2) := by
  rw [badgeStep]
  cases hg : alGet st.1 key with
  | none => left; rfl
  | some mg =>
    dsimp only
    by_cases hd : 0 < mg.dispo
    · right
      rw [if_pos hd]
      exact ⟨mg, _, _, rfl, rfl⟩
    · right
      rw [if_neg hd]
      exact ⟨mg, none, st.2, rfl, rfl⟩

theorem pass3_reads (keys : List WKey) :
    ∀ (m : List (WKey × Marge)) (last : Option ℚ) (k : WKey),
      (alGet ((keys.foldl badgeStep (m, last)).1) k).map Marge.Tdisp =
        (alGet m k).map Marge.Tdisp ∧
      ((alGet ((keys.foldl badgeStep (m, last)).1) k).getD default).M =
        ((alGet m k).getD default).M := by
  induction keys with
  | nil => intro m last k; exact ⟨rfl, rfl⟩
  | cons key keys ih =>
    intro m last k
    rw [List.foldl_cons]
    rcases badgeStep_cases (m, last) key with heq | ⟨mg, b, l2, hg, heq⟩
    · rw [heq]
      exact ih m last k
    · rw [heq]
      obtain ⟨ihT, ihM⟩ := ih (alSet m key { mg with badge := b }) l2 k
      rw [ihT, ihM]
      by_cases hkk : k = key
      · subst hkk
        rw [alGet_alSet_eq]
        have hg' : alGet m k = some mg := hg
        rw [hg']
        exact ⟨rfl, rfl⟩
      · rw [alGet_alSet_ne _ _ _ _ hkk]
        exact ⟨rfl, rfl⟩

theorem pass1_present (avail : List (WKey × Avail)) (chantiers : Store) (name : String)
    (cur : Nat) (k : WKey) (hk : k ∈ projKeys cur) :
    (alGet (pass1 avail chantiers name cur) k).isSome = true := by
  rw [projKeys, List.mem_map] at hk
  obtain ⟨w, hw, hwk⟩ := hk
  rw [pass1]
  have hfold : ∀ (l : List Week) (acc : List (WKey × Marge) × ℚ),
      ((alGet acc.1 k).isSome = true ∨ ∃ w2 ∈ l, weekKeyOf w2 = k) →
      (alGet ((l.foldl (fun (acc : List (WKey × Marge) × ℚ) w =>
        let key := weekKeyOf w
        let dispoH : ℚ := (dispoOf avail key : ℚ) / 60
        let C : ℚ := (chargeEcheanceMin chantiers name cur w : ℚ) / 60
        let CA := dispoH + acc.2
        let M := CA - C
        (alSet acc.1 key ⟨dispoH, C, CA, M, none, none⟩, M)) acc).1) k).isSome = true := by
    intro l
    induction l with
    | nil =>
      intro acc h
      rcases h with h | ⟨w2, hw2, _⟩
      · exact h
      · cases hw2
    | cons w2 l ih =>
      intro acc h
      rw [List.foldl_cons]
      refine ih _ ?_
      rcases h with h | ⟨w3, hw3, hw3k⟩
      · left
        dsimp only
        by_cases hkk : k = weekKeyOf w2
        · subst hkk
          rw [alGet_alSet_eq]
          rfl
        · rw [alGet_alSet_ne _ _ _ _ hkk]
          exact h
      · rcases List.mem_cons.mp hw3 with heq | hmem
        · left
          dsimp only
          subst heq
          rw [← hw3k, alGet_alSet_eq]
          rfl
        · right
          exact ⟨w3, hmem, hw3k⟩
  exact hfold _ _ (Or.inr ⟨w, hw, hwk⟩)

/-- C6 (amended): for every resource projection and every projected position
whose week key does not recur at a later position (true of every position as
soon as the current week index is at least 1; at index 0 the key of S1/2024
recurs at position 52 as S1/2025 maps to the same storage key), the stored
`Tdisp` equals the minimum of `M` over the 16-week window starting there, and
that minimum — hence `Tdisp` — is at most the week's own `M`. -/
theorem C6_window (avail : List (WKey × Avail)) (chantiers : Store) (name : String)
    (cur : Nat) (idx : Nat) (hidx : idx < (projKeys cur).length)
    (hlater : ∀ j, idx < j → j < (projKeys cur).length →
      (projKeys cur).getD j default ≠ (projKeys cur).getD idx default) :
    ∃ mm : ℚ,
      windowMinM (margesGlobales avail chantiers name cur) (projKeys cur) idx = some mm ∧
      (alGet (margesGlobales avail chantiers name cur)
          ((projKeys cur).getD idx default)).map Marge.Tdisp = some (some mm) ∧
      mm ≤ ((alGet (margesGlobales avail chantiers name cur)
          ((projKeys cur).getD idx default)).getD default).M := by
  set keys := projKeys cur with hkeys
  set m1 := pass1 avail chantiers name cur with hm1
  set key := keys.getD idx default with hkey
  have hpres : (alGet m1 key).isSome = true := by
    rw [hm1]
    refine pass1_present avail chantiers name cur key ?_
    rw [hkey, hkeys]
    rw [List.getD_eq_getElem _ _ (by rw [← hkeys]; exact hidx)]
    exact List.getElem_mem _
  have hsplit := range_split keys.length idx hidx
  have hp2 : pass2 m1 keys =
      ((List.range (keys.length - idx - 1)).map (fun i => idx + 1 + i)).foldl
        (pass2Step keys) (pass2Step keys ((List.range idx).foldl (pass2Step keys) m1) idx) := by
    rw [pass2_eq_fold, hsplit, List.foldl_append, List.foldl_cons]
  obtain ⟨hA_M, hA_pres, -⟩ := pass2fold_reads keys (List.range idx) m1
  set mA := (List.range idx).foldl (pass2Step keys) m1 with hmA
  have hpresA : (alGet mA key).isSome = true := by
    rw [hA_pres key]
    exact hpres
  obtain ⟨mg, hmg⟩ : ∃ mg, alGet mA key = some mg :=
    Option.isSome_iff_exists.mp hpresA
  obtain ⟨mm, hmm1, hle1⟩ := windowMinM_head m1 keys idx hidx
  have hmmA : windowMinM mA keys idx = some mm := by
    rw [windowMinM_congr m1 mA keys idx hA_M]
    exact hmm1
  have hstep : pass2Step keys mA idx = alSet mA key { mg with Tdisp := some mm } := by
    rw [pass2Step, ← hkey, hmg, hmmA]
  obtain ⟨-, -, hpost_un⟩ := pass2fold_reads keys
    ((List.range (keys.length - idx - 1)).map (fun i => idx + 1 + i))
    (alSet mA key { mg with Tdisp := some mm })
  have hm2key : alGet (pass2 m1 keys) key = some { mg with Tdisp := some mm } := by
    rw [hp2, hstep]
    rw [hpost_un key ?_, alGet_alSet_eq]
    intro j hj
    obtain ⟨i2, hi2, hieq⟩ := List.mem_map.mp hj
    rw [List.mem_range] at hi2
    have hjlt : j < keys.length := by omega
    have hjgt : idx < j := by omega
    exact hlater j hjgt hjlt
  have hm2_M : ∀ k, ((alGet (pass2 m1 keys) k).getD default).M =
      ((alGet m1 k).getD default).M := by
    intro k
    rw [pass2_eq_fold]
    exact (pass2fold_reads keys (List.range keys.length) m1).1 k
  have hfinal_M : ∀ k, ((alGet (margesGlobales avail chantiers name cur) k).getD default).M =
      ((alGet m1 k).getD default).M := by
    intro k
    have h3 := (pass3_reads keys (pass2 m1 keys) none k).2
    rw [← hm2_M k]
    exact h3
  refine ⟨mm, ?_, ?_, ?_⟩
  · rw [windowMinM_congr m1 (margesGlobales avail chantiers name cur) keys idx hfinal_M]
    exact hmm1
  · have h3 := (pass3_reads keys (pass2 m1 keys) none key).1
    calc (alGet (margesGlobales avail chantiers name cur) key).map Marge.Tdisp
        = (alGet (pass2 m1 keys) key).map Marge.Tdisp := h3
      _ = some (some mm) := by rw [hm2key]; rfl
  · rw [hfinal_M key]
    exact hle1

set_option maxRecDepth 100000 in
/-- C6 fails as stated: the projection key list can repeat a key — at current
index 0, position 0 (S1/2024) and position 52 (S1/2025) share the storage key
`(2024, 1)` — and then the second pass overwrites the shared record, so the
stored `Tdisp` is the window minimum of the **last** occurrence, not of the
week itself.  On a two-record map whose keys recur this way, the stored
`Tdisp` is `5` while the claimed 16-week window minimum from position 0 is
`1`. -/
theorem C6_counterexample :
    (projKeys 0).getD 0 default = (2024, 1) ∧
    (projKeys 0).getD 52 default = (2024, 1) ∧
    (alGet (pass2
        [((2024, 1), ⟨1, 0, 1, 5, none, none⟩), ((2024, 2), ⟨1, 0, 1, 1, none, none⟩)]
        [(2024, 1), (2024, 2), (2024, 1)]) ((2024, 1) : WKey)).map Marge.Tdisp =
      some (some 5) ∧
    windowMinM
        [((2024, 1), ⟨1, 0, 1, 5, none, none⟩), ((2024, 2), ⟨1, 0, 1, 1, none, none⟩)]
        [(2024, 1), (2024, 2), (2024, 1)] 0 = some 1 ∧
    ((5 : ℚ) ≠ 1) := by
  refine ⟨?_, ?_, ?_, ?_, ?_⟩ <;> with_unfolding_all decide

set_option maxRecDepth 100000 in
theorem C6_witness :
    ∃ mm : ℚ,
      windowMinM (margesGlobales [((2028, 48), Avail.obj 2400)] [] "A" 256)
        (projKeys 256) 0 = some mm ∧
      (alGet (margesGlobales [((2028, 48), Avail.obj 2400)] [] "A" 256)
          ((projKeys 256).getD 0 default)).map Marge.Tdisp = some (some mm) ∧
      mm ≤ ((alGet (margesGlobales [((2028, 48), Avail.obj 2400)] [] "A" 256)
          ((projKeys 256).getD 0 default)).getD default).M :=
  C6_window [((2028, 48), Avail.obj 2400)] [] "A" 256 0 (by decide)
    (by
      intro j hj1 hj2
      have hlen : (projKeys 256).length = 5 := by decide
      rw [hlen] at hj2
      interval_cases j <;> decide)

/-! ## Claim C1 plumbing: idempotence of the reallocation -/

theorem alGet_of_mem_nodup {κ α : Type} [DecidableEq κ] {m : List (κ × α)}
    (hnd : (m.map Prod.fst).Nodup) {q : κ × α} (hq : q ∈ m) :
    alGet m q.1 = some q.2 := by
  rw [alGet, find?_eq_of_mem_nodup hnd hq]
  rfl

theorem alSet_self {κ α : Type} [DecidableEq κ] (m : List (κ × α)) (k : κ) (v : α)
    (hnd : (m.map Prod.fst).Nodup) (h : alGet m k = some v) : alSet m k v = m := by
  have hfind : ∃ q, m.find? (fun p => p.1 = k) = some q ∧ q.2 = v := by
    rw [alGet] at h
    obtain ⟨q, hq1, hq2⟩ := Option.map_eq_some'.mp h
    exact ⟨q, hq1, hq2⟩
  obtain ⟨q, hq1, hq2⟩ := hfind
  have hqmem : q ∈ m := List.mem_of_find?_eq_some hq1
  have hqk : q.1 = k := by
    have := List.find?_some hq1
    simpa using this
  have hmem : k ∈ m.map Prod.fst := hqk ▸ List.mem_map_of_mem Prod.fst hqmem
  rw [alSet_of_mem m k v hmem]
  have hid : ∀ p ∈ m, (if p.1 = k then (k, v) else p) = id p := by
    intro p hp
    by_cases hpk : p.1 = k
    · rw [if_pos hpk, id]
      have hpq : p = q := entry_unique hnd hp hqmem (by rw [hpk, hqk])
      rw [hpq, ← hqk, ← hq2]
    · rw [if_neg hpk, id]
  rw [List.map_congr_left hid, List.map_id]

theorem writeBack_noop (g : Store) : ∀ st : Store, (st.map Prod.fst).Nodup →
    (∀ p ∈ g, alGet st p.1 = some p.2) → writeBack st g = st := by
  induction g with
  | nil => intro st _ _; rfl
  | cons p g ih =>
    intro st hnd h
    rw [writeBack, List.foldl_cons, ← writeBack,
      alSet_self st p.1 p.2 hnd (h p (List.mem_cons_self p g))]
    exact ih st hnd (fun q hq => h q (List.mem_cons_of_mem p hq))

theorem foldPR_fix (cur : Nat) (pk : List WKey) : ∀ (data : DataStore) (st : Store),
    (∀ nd ∈ data, processResource cur pk st nd = st) →
    data.foldl (processResource cur pk) st = st := by
  intro data
  induction data with
  | nil => intro st _; rfl
  | cons nd data ih =>
    intro st h
    rw [List.foldl_cons, h nd (List.mem_cons_self nd data)]
    exact ih st (fun nd2 h2 => h nd2 (List.mem_cons_of_mem nd h2))

theorem frame_fields {a b : Chantier} (h : frame a = frame b) :
    a.status = b.status ∧ a.preparateur = b.preparateur ∧ a.prepTime = b.prepTime ∧
    a.endDate = b.endDate ∧ a.tempsRestant = b.tempsRestant := by
  rw [frame, frame] at h
  exact ⟨congrArg (fun q => q.1) h, congrArg (fun q => q.2.1) h,
    congrArg (fun q => q.2.2.1) h, congrArg (fun q => q.2.2.2.1) h,
    congrArg (fun q => q.2.2.2.2) h⟩

theorem resetPast_congr (cur : Nat) {a b : Chantier} (hfr : frame a = frame b)
    (hp : filterPast cur a.planification = filterPast cur b.planification) :
    resetPast cur a = resetPast cur b := by
  obtain ⟨h1, h2, h3, h4, h5⟩ := frame_fields hfr
  simp only [resetPast]
  rw [h1, h2, h3, h4, h5, hp]

theorem getD_mapStrip (g : Store) (j : Nat) :
    (g.map (fun p => (p.1, stripTr p.2))).getD j default =
      ((g.getD j default).1, stripTr (g.getD j default).2) := by
  by_cases hj : j < g.length
  · exact getD_map_pair stripTr g j hj
  · rw [List.getD_eq_default _ _ (by simpa using Nat.le_of_not_lt hj),
      List.getD_eq_default _ _ (Nat.le_of_not_lt hj)]
    rfl

theorem sumAtKey_mapStrip (g : Store) (k : WKey) :
    sumAtKey (g.map (fun p => (p.1, stripTr p.2))) k = sumAtKey g k := by
  rw [sumAtKey_eq_sum, sumAtKey_eq_sum, List.map_map]
  congr 1

theorem modifyJob_mapStrip (g : Store) (j : Nat) (k : WKey) (t : Int) :
    modifyJob (g.map (fun p => (p.1, stripTr p.2))) j (fun c => addAlloc c k t) =
      (modifyJob g j (fun c => addAlloc c k t)).map (fun p => (p.1, stripTr p.2)) := by
  rw [modifyJob, modifyJob, List.map_set, getD_mapStrip]
  rfl

theorem allocWeek_mapStrip (dispoF : WKey → Int) (j : Nat) (g : Store) (rem : Int) (k : WKey) :
    allocWeek dispoF j (g.map (fun p => (p.1, stripTr p.2)), rem) k =
      ((allocWeek dispoF j (g, rem) k).1.map (fun p => (p.1, stripTr p.2)),
        (allocWeek dispoF j (g, rem) k).2) := by
  simp only [allocWeek, sumAtKey_mapStrip]
  by_cases h0 : rem ≤ 0
  · rw [if_pos h0, if_pos h0]
  · rw [if_neg h0, if_neg h0]
    by_cases hpos : 0 < min rem (max 0 (dispoF k - sumAtKey g k))
    · rw [if_pos hpos, if_pos hpos, modifyJob_mapStrip]
    · rw [if_neg hpos, if_neg hpos]

theorem weekFold_mapStrip (dispoF : WKey → Int) (j : Nat) (keys : List WKey) :
    ∀ (g : Store) (rem : Int),
      weekFold dispoF j (g.map (fun p => (p.1, stripTr p.2)), rem) keys =
        ((weekFold dispoF j (g, rem) keys).1.map (fun p => (p.1, stripTr p.2)),
          (weekFold dispoF j (g, rem) keys).2) := by
  induction keys with
  | nil => intro g rem; rfl
  | cons k keys ih =>
    intro g rem
    have h1 : weekFold dispoF j (g.map (fun p => (p.1, stripTr p.2)), rem) (k :: keys) =
        weekFold dispoF j
          (allocWeek dispoF j (g.map (fun p => (p.1, stripTr p.2)), rem) k) keys := rfl
    have h2 : weekFold dispoF j (g, rem) (k :: keys) =
        weekFold dispoF j (allocWeek dispoF j (g, rem) k) keys := rfl
    rw [h1, h2, allocWeek_mapStrip]
    have h3 := ih (allocWeek dispoF j (g, rem) k).1 (allocWeek dispoF j (g, rem) k).2
    rw [Prod.mk.eta] at h3
    exact h3

theorem placeJob_mapStrip (dispoF : WKey → Int) (planKeys : List WKey) (g : Store) (j : Nat) :
    placeJob dispoF planKeys (g.map (fun p => (p.1, stripTr p.2))) j =
      (placeJob dispoF planKeys g j).map (fun p => (p.1, stripTr p.2)) := by
  rw [placeJob_eq_weekFold, placeJob_eq_weekFold]
  have hrem : ((g.map (fun p => (p.1, stripTr p.2))).getD j default).2.prepTime -
      sumVals ((g.map (fun p => (p.1, stripTr p.2))).getD j default).2.planification =
      (g.getD j default).2.prepTime - sumVals (g.getD j default).2.planification := by
    rw [getD_mapStrip]
    rfl
  rw [hrem, weekFold_mapStrip]

theorem phase2_mapStrip (dispoF : WKey → Int) (planKeys : List WKey) (g : Store) :
    phase2 dispoF planKeys (g.map (fun p => (p.1, stripTr p.2))) =
      (phase2 dispoF planKeys g).map (fun p => (p.1, stripTr p.2)) := by
  rw [phase2, phase2, List.length_map]
  generalize List.range g.length = idxs
  induction idxs generalizing g with
  | nil => rfl
  | cons j idxs ih =>
    rw [List.foldl_cons, List.foldl_cons, placeJob_mapStrip]
    exact ih (placeJob dispoF planKeys g j)

theorem insertByKey_mapStrip (key : (String × Chantier) → Int)
    (hk : ∀ p : String × Chantier, key (p.1, stripTr p.2) = key p) (x : String × Chantier) :
    ∀ l : Store,
      insertByKey key (x.1, stripTr x.2) (l.map (fun p => (p.1, stripTr p.2))) =
        (insertByKey key x l).map (fun p => (p.1, stripTr p.2)) := by
  intro l
  induction l with
  | nil => rfl
  | cons y l ih =>
    rw [List.map_cons, insertByKey, insertByKey]
    by_cases hc : key x ≤ key y
    · rw [if_pos (by rw [hk x, hk y]; exact hc), if_pos hc, List.map_cons, List.map_cons]
    · rw [if_neg (by rw [hk x, hk y]; exact hc), if_neg hc, List.map_cons, ih]

theorem sortByKey_mapStrip (key : (String × Chantier) → Int)
    (hk : ∀ p : String × Chantier, key (p.1, stripTr p.2) = key p) :
    ∀ l : Store,
      sortByKey key (l.map (fun p => (p.1, stripTr p.2))) =
        (sortByKey key l).map (fun p => (p.1, stripTr p.2)) := by
  intro l
  induction l with
  | nil => rfl
  | cons x l ih =>
    rw [List.map_cons, sortByKey, sortByKey, ih]
    exact insertByKey_mapStrip key hk x (sortByKey key l)

theorem filter_mapStrip (n : String) (st : Store) :
    (st.map (fun p => (p.1, stripTr p.2))).filter (ownedBy n) =
      (st.filter (ownedBy n)).map (fun p => (p.1, stripTr p.2)) := by
  rw [List.filter_map]
  have hpred : (ownedBy n) ∘ (fun p : String × Chantier => (p.1, stripTr p.2)) =
      ownedBy n := funext fun p => rfl
  rw [hpred]

theorem alSet_mapStrip (st : Store) (k : String) (v : Chantier) :
    alSet (st.map (fun p => (p.1, stripTr p.2))) k (stripTr v) =
      (alSet st k v).map (fun p => (p.1, stripTr p.2)) := by
  rw [alSet, alSet]
  have hany : (st.map (fun p => (p.1, stripTr p.2))).any (fun p => p.1 = k) =
      st.any (fun p => p.1 = k) := by
    rw [List.any_map]
    congr 1
  rw [hany]
  by_cases hmem : st.any (fun p => p.1 = k) = true
  · rw [if_pos hmem, if_pos hmem, List.map_map, List.map_map]
    apply List.map_congr_left
    intro p _
    by_cases hpk : p.1 = k
    · simp [Function.comp, hpk]
    · simp [Function.comp, hpk]
  · rw [if_neg hmem, if_neg hmem, List.map_append]
    rfl

theorem writeBack_mapStrip (g : Store) : ∀ st : Store,
    writeBack (st.map (fun p => (p.1, stripTr p.2))) (g.map (fun p => (p.1, stripTr p.2))) =
      (writeBack st g).map (fun p => (p.1, stripTr p.2)) := by
  induction g with
  | nil => intro st; rfl
  | cons p g ih =>
    intro st
    have h1 : writeBack (st.map (fun q => (q.1, stripTr q.2)))
        ((p :: g).map (fun q => (q.1, stripTr q.2))) =
        writeBack (alSet (st.map (fun q => (q.1, stripTr q.2))) p.1 (stripTr p.2))
          (g.map (fun q => (q.1, stripTr q.2))) := rfl
    have h2 : writeBack st (p :: g) = writeBack (alSet st p.1 p.2) g := rfl
    rw [h1, h2, alSet_mapStrip]
    exact ih (alSet st p.1 p.2)

theorem resetPastPair_mapStrip (cur : Nat) (l : Store) :
    (l.map (fun p => (p.1, stripTr p.2))).map (fun p => (p.1, resetPast cur p.2)) =
      (l.map (fun p => (p.1, resetPast cur p.2))).map (fun p => (p.1, stripTr p.2)) := by
  rw [List.map_map, List.map_map]
  apply List.map_congr_left
  intro p _
  rfl

theorem isEmpty_mapF {α β : Type} (f : α → β) (l : List α) :
    (l.map f).isEmpty = l.isEmpty := by
  cases l <;> rfl

theorem processResource_mapStrip (cur : Nat) (pk : List WKey) (st : Store)
    (nd : String × List (WKey × Avail)) :
    processResource cur pk (st.map (fun p => (p.1, stripTr p.2))) nd =
      (processResource cur pk st nd).map (fun p => (p.1, stripTr p.2)) := by
  simp only [processResource, filter_mapStrip,
    sortByKey_mapStrip (fun p => dateKey p.2.endDate) (fun p => rfl), isEmpty_mapF,
    resetPastPair_mapStrip, phase2_mapStrip, writeBack_mapStrip]
  by_cases hemp : (sortByKey (fun p => dateKey p.2.endDate)
      (st.filter (ownedBy nd.1))).isEmpty
  · rw [if_pos hemp, if_pos hemp]
  · rw [if_neg hemp, if_neg hemp]

theorem foldPR_mapStrip (cur : Nat) (pk : List WKey) (data : DataStore) : ∀ st : Store,
    data.foldl (processResource cur pk) (st.map (fun p => (p.1, stripTr p.2))) =
      (data.foldl (processResource cur pk) st).map (fun p => (p.1, stripTr p.2)) := by
  induction data with
  | nil => intro st; rfl
  | cons nd data ih =>
    intro st
    rw [List.foldl_cons, List.foldl_cons, processResource_mapStrip]
    exact ih (processResource cur pk st nd)

theorem getD_fst_eq_of_map_fst {st st' : Store} (h : st'.map Prod.fst = st.map Prod.fst)
    (i : Nat) (hi : i < st.length) : (st'.getD i default).1 = (st.getD i default).1 := by
  have hlen : st'.length = st.length := by
    have := congrArg List.length h
    simpa using this
  have hmap := congrArg (fun l => l.getD i "") h
  simp only at hmap
  rw [List.getD_eq_getElem _ _ (by simpa using (hlen ▸ hi)),
    List.getD_eq_getElem _ _ (by simpa using hi)] at hmap
  rw [List.getElem_map, List.getElem_map] at hmap
  rw [List.getD_eq_getElem _ _ (by omega), List.getD_eq_getElem _ _ hi]
  exact hmap

theorem filter_frames_forall2 (n : String) :
    ∀ (st st' : Store), st'.length = st.length →
      (∀ i, i < st.length → (st'.getD i default).1 = (st.getD i default).1 ∧
        frame (st'.getD i default).2 = frame (st.getD i default).2) →
      List.Forall₂ (fun p q : String × Chantier => p.1 = q.1 ∧ frame p.2 = frame q.2)
        (st'.filter (ownedBy n)) (st.filter (ownedBy n)) := by
  intro st
  induction st with
  | nil =>
    intro st' hlen _
    have h0 : st' = [] := List.length_eq_zero.mp hlen
    rw [h0]
    exact List.Forall₂.nil
  | cons x xs ih =>
    intro st' hlen hpt
    cases st' with
    | nil => simp at hlen
    | cons y ys =>
      have h0 := hpt 0 (by simp)
      simp only [List.getD_cons_zero] at h0
      have htail : ∀ i, i < xs.length → (ys.getD i default).1 = (xs.getD i default).1 ∧
          frame (ys.getD i default).2 = frame (xs.getD i default).2 := by
        intro i hi
        have := hpt (i + 1) (by simp only [List.length_cons]; omega)
        simpa [List.getD_cons_succ] using this
      have hlen' : ys.length = xs.length := by simpa using hlen
      have hown : ownedBy n y = ownedBy n x := ownedBy_congr h0.2
      by_cases hx : ownedBy n x = true
      · rw [List.filter_cons, List.filter_cons, if_pos hx, if_pos (by rw [hown]; exact hx)]
        exact List.Forall₂.cons h0 (ih ys hlen' htail)
      · rw [List.filter_cons, List.filter_cons, if_neg hx, if_neg (by rw [hown]; exact hx)]
        exact ih ys hlen' htail

theorem insertByKey_forall2 {α : Type} (key : α → Int) (S : α → α → Prop)
    (hkey : ∀ a b, S a b → key a = key b) (x y : α) (hxy : S x y) :
    ∀ {l l' : List α}, List.Forall₂ S l l' →
      List.Forall₂ S (insertByKey key x l) (insertByKey key y l') := by
  intro l l' h
  induction h with
  | nil => exact List.Forall₂.cons hxy List.Forall₂.nil
  | @cons a b l2 l2' hab htail ih =>
    rw [insertByKey, insertByKey]
    by_cases hc : key x ≤ key a
    · rw [if_pos hc, if_pos (by rw [← hkey x y hxy, ← hkey a b hab]; exact hc)]
      exact List.Forall₂.cons hxy (List.Forall₂.cons hab htail)
    · rw [if_neg hc, if_neg (by rw [← hkey x y hxy, ← hkey a b hab]; exact hc)]
      exact List.Forall₂.cons hab ih

theorem sortByKey_forall2 {α : Type} (key : α → Int) (S : α → α → Prop)
    (hkey : ∀ a b, S a b → key a = key b) :
    ∀ {l l' : List α}, List.Forall₂ S l l' →
      List.Forall₂ S (sortByKey key l) (sortByKey key l') := by
  intro l l' h
  induction h with
  | nil => exact List.Forall₂.nil
  | @cons a b l2 l2' hab htail ih =>
    rw [sortByKey, sortByKey]
    exact insertByKey_forall2 key S hkey a b hab ih

theorem forall2_getD {α : Type} [Inhabited α] (S : α → α → Prop) :
    ∀ {l l' : List α}, List.Forall₂ S l l' → ∀ j, j < l.length →
      S (l.getD j default) (l'.getD j default) := by
  intro l l' h
  induction h with
  | nil => intro j hj; simp at hj
  | @cons a b l2 l2' hab htail ih =>
    intro j hj
    cases j with
    | zero => exact hab
    | succ j =>
      rw [List.getD_cons_succ, List.getD_cons_succ]
      exact ih j (by simpa using hj)

/-- The per-resource fold is a closure operator on the store: running it a
second time on its own output changes nothing, because each resource's group
re-sorts to exactly the previous greedy output, the past-reset reproduces the
previous pre-placement records, and the greedy pass then recomputes the very
same allocations, which the write-back re-assigns as no-ops. -/
theorem foldPR_idem (cur : Nat) (st1 : Store) (data : DataStore)
    (hnd : (st1.map Prod.fst).Nodup) (hnames : (data.map Prod.fst).Nodup)
    (hpnd : ∀ p ∈ st1, ((p.2.planification.map Prod.fst)).Nodup) :
    data.foldl (processResource cur ((weeks.drop cur).map weekKeyOf))
      (data.foldl (processResource cur ((weeks.drop cur).map weekKeyOf)) st1) =
    data.foldl (processResource cur ((weeks.drop cur).map weekKeyOf)) st1 := by
  set planKeys := (weeks.drop cur).map weekKeyOf with hpk
  set B1 := data.foldl (processResource cur planKeys) st1 with hB1
  have hB1nd : (B1.map Prod.fst).Nodup := by
    rw [hB1, (foldPR_char cur planKeys data st1 hnd).1]
    exact hnd
  refine foldPR_fix cur planKeys data B1 ?_
  intro nd hmem
  obtain ⟨pre, post, hsplit, hpre, hpost⟩ := data_split hmem hnames
  set stPre := pre.foldl (processResource cur planKeys) st1 with hstPre
  have hPreNd : (stPre.map Prod.fst).Nodup := by
    rw [hstPre, (foldPR_char cur planKeys pre st1 hnd).1]
    exact hnd
  have hfiltPre : stPre.filter (ownedBy nd.1) = st1.filter (ownedBy nd.1) := by
    rw [hstPre]
    exact foldPR_filter_ne cur planKeys nd.1 pre st1 hnd (fun e he => hpre e he)
  set stN := processResource cur planKeys stPre nd with hstN
  have hNnd : (stN.map Prod.fst).Nodup := by
    rw [hstN, (processResource_char cur planKeys stPre nd hPreNd).1]
    exact hPreNd
  have hB1split : B1 = post.foldl (processResource cur planKeys) stN := by
    rw [hB1, hsplit, List.foldl_append, List.foldl_cons, ← hstPre, ← hstN]
  have hG : B1.filter (ownedBy nd.1) = stN.filter (ownedBy nd.1) := by
    rw [hB1split]
    exact foldPR_filter_ne cur planKeys nd.1 post stN hNnd (fun e he => hpost e he)
  set grp := stPre.filter (ownedBy nd.1) with hgrp
  set sorted := sortByKey (fun p => dateKey p.2.endDate) grp with hsorted
  by_cases hemp : sorted.isEmpty
  · have hsortnil : sorted = [] := List.isEmpty_iff.mp hemp
    have hgrpnil : grp = [] := by
      have hp2 := sortByKey_perm (fun p : String × Chantier => dateKey p.2.endDate) grp
      rw [← hsorted, hsortnil] at hp2
      exact hp2.symm.eq_nil
    have hstNeq : stN = stPre := by
      rw [hstN, processResource, ← hgrp, ← hsorted, if_pos hemp]
    have hGnil : B1.filter (ownedBy nd.1) = [] := by
      rw [hG, hstNeq, ← hgrp, hgrpnil]
    rw [processResource, hGnil]
    rfl
  · -- the non-empty group case
    set g1 := sorted.map (fun p => (p.1, resetPast cur p.2)) with hg1
    set g2 := phase2 (fun k => dispoOf nd.2 k) planKeys g1 with hg2
    have hpermS : List.Perm sorted grp := sortByKey_perm _ _
    have hpermG : List.Perm (stN.filter (ownedBy nd.1)) g2 := by
      have h := processResource_self_filter cur planKeys stPre nd hPreNd
      rw [← hgrp, ← hsorted, ← hg1, ← hg2] at h
      rw [hstN]
      exact h
    have hpermB : List.Perm (B1.filter (ownedBy nd.1)) g2 := hG ▸ hpermG
    obtain ⟨hNfst, hNrec⟩ := processResource_char cur planKeys stPre nd hPreNd
    have hNlen : stN.length = stPre.length := by
      rw [hstN]
      exact processResource_length cur planKeys stPre nd hPreNd
    -- the second run's sorted group is exactly g2
    have hf2 : List.Forall₂ (fun p q : String × Chantier => p.1 = q.1 ∧ frame p.2 = frame q.2)
        (B1.filter (ownedBy nd.1)) grp := by
      rw [hG, hgrp]
      refine filter_frames_forall2 nd.1 stPre stN hNlen ?_
      intro i hi
      refine ⟨?_, (hNrec i hi).1⟩
      refine getD_fst_eq_of_map_fst ?_ i hi
      rw [← hstN] at hNfst
      exact hNfst
    have hfsort : List.Forall₂ (fun p q : String × Chantier => p.1 = q.1 ∧ frame p.2 = frame q.2)
        (sortByKey (fun p => dateKey p.2.endDate) (B1.filter (ownedBy nd.1))) sorted := by
      rw [hsorted]
      refine sortByKey_forall2 _ _ ?_ hf2
      intro a b hab
      have := (frame_fields hab.2).2.2.2.1
      rw [this]
    have hg1len : g1.length = sorted.length := by rw [hg1, List.length_map]
    have hg2len : g2.length = sorted.length := by rw [hg2, phase2_length, hg1len]
    have hsortBlen : (sortByKey (fun p => dateKey p.2.endDate)
        (B1.filter (ownedBy nd.1))).length = g2.length := by
      rw [List.Forall₂.length_eq hfsort, hg2len]
    have hndG : ((B1.filter (ownedBy nd.1)).map Prod.fst).Nodup :=
      ((List.filter_sublist B1).map Prod.fst).nodup hB1nd
    have hsorted_eq : sortByKey (fun p => dateKey p.2.endDate) (B1.filter (ownedBy nd.1)) = g2 := by
      refine List.ext_getElem (by rw [hsortBlen]) ?_
      intro j h1 h2
      have hjg2 : j < g2.length := h2
      have hjs : j < sorted.length := by omega
      have hjg1 : j < g1.length := by omega
      have hS := forall2_getD _ hfsort j (by rw [List.Forall₂.length_eq hfsort]; omega)
      have hid2 : (g2.getD j default).1 = (sorted.getD j default).1 := by
        rw [hg2, (phase2_frame (fun k => dispoOf nd.2 k) planKeys g1 j).2, hg1,
          getD_map_pair _ sorted j hjs]
      have hids : ((sortByKey (fun p => dateKey p.2.endDate)
          (B1.filter (ownedBy nd.1))).getD j default).1 = (g2.getD j default).1 := by
        rw [hS.1, hid2]
      have hmem1 : (sortByKey (fun p => dateKey p.2.endDate)
          (B1.filter (ownedBy nd.1))).getD j default ∈ B1.filter (ownedBy nd.1) :=
        (sortByKey_perm _ _).mem_iff.mp (getD_mem _ j (by omega))
      have hmem2 : g2.getD j default ∈ B1.filter (ownedBy nd.1) :=
        hpermB.symm.mem_iff.mp (getD_mem g2 j hjg2)
      have heq := entry_unique hndG hmem1 hmem2 hids
      rw [List.getD_eq_getElem _ _ h1, List.getD_eq_getElem _ _ h2] at heq
      exact heq
    -- past-reset of g2 reproduces g1
    have hreset : g2.map (fun p => (p.1, resetPast cur p.2)) = g1 := by
      refine List.ext_getElem (by rw [List.length_map, hg2len, hg1len]) ?_
      intro j h1 h2
      have hjg2 : j < g2.length := by simpa using h1
      have hjg1 : j < g1.length := h2
      have hjs : j < sorted.length := by omega
      have hmap : (g2.map (fun p => (p.1, resetPast cur p.2))).getD j default =
          ((g2.getD j default).1, resetPast cur (g2.getD j default).2) :=
        getD_map_pair _ g2 j hjg2
      have hg1j : g1.getD j default =
          ((sorted.getD j default).1, resetPast cur (sorted.getD j default).2) := by
        rw [hg1, getD_map_pair _ sorted j hjs]
      have hid2 : (g2.getD j default).1 = (sorted.getD j default).1 := by
        rw [hg2, (phase2_frame (fun k => dispoOf nd.2 k) planKeys g1 j).2, hg1j]
      have hfr2 : frame (g2.getD j default).2 = frame (sorted.getD j default).2 := by
        rw [hg2, (phase2_frame (fun k => dispoOf nd.2 k) planKeys g1 j).1, hg1j]
        exact frame_resetPast cur _
      have hsortmem : sorted.getD j default ∈ grp := hpermS.mem_iff.mp (getD_mem sorted j hjs)
      have hst1mem : sorted.getD j default ∈ st1 := by
        rw [hfiltPre] at hsortmem
        exact List.mem_of_mem_filter hsortmem
      have hnd1 : (((g1.getD j default).2.planification).map Prod.fst).Nodup := by
        rw [hg1j]
        have : (resetPast cur (sorted.getD j default).2).planification =
            filterPast cur (sorted.getD j default).2.planification := rfl
        rw [this, filterPast]
        exact ((List.filter_sublist _).map Prod.fst).nodup (hpnd _ hst1mem)
      obtain ⟨remf, -, -, -, -, -, hF⟩ := phase2_job (fun k => dispoOf nd.2 k) planKeys cur
        (fun k hk => planKeys_future cur k hk) g1 j hjg1 hnd1
      rw [← hg2] at hF
      have hp : filterPast cur (g2.getD j default).2.planification =
          filterPast cur (sorted.getD j default).2.planification := by
        rw [hF, hg1j]
        have : (resetPast cur (sorted.getD j default).2).planification =
            filterPast cur (sorted.getD j default).2.planification := rfl
        rw [this, filterPast_idem]
      have hcongr : resetPast cur (g2.getD j default).2 =
          resetPast cur (sorted.getD j default).2 := resetPast_congr cur hfr2 hp
      have : (g2.map (fun p => (p.1, resetPast cur p.2))).getD j default =
          g1.getD j default := by
        rw [hmap, hid2, hcongr, hg1j]
      rw [List.getD_eq_getElem _ _ h1, List.getD_eq_getElem _ _ h2] at this
      exact this
    -- the second pass is a no-op
    have hg2ne : ¬(g2.isEmpty = true) := by
      intro hcon
      have h0 : g2 = [] := List.isEmpty_iff.mp hcon
      have := congrArg List.length h0
      rw [hg2len] at this
      simp at this
      rw [this] at hemp
      exact hemp rfl
    rw [processResource, hsorted_eq, if_neg hg2ne, hreset]
    show writeBack B1 (phase2 (fun k => dispoOf nd.2 k) planKeys g1) = B1
    rw [← hg2]
    refine writeBack_noop g2 B1 hB1nd ?_
    intro p hp
    have hpB : p ∈ B1.filter (ownedBy nd.1) := hpermB.symm.mem_iff.mp hp
    exact alGet_of_mem_nodup hB1nd (List.mem_of_mem_filter hpB)

theorem filter_idem_pred {α : Type} (q : α → Bool) (l : List α) :
    (l.filter q).filter q = l.filter q := by
  rw [List.filter_filter]
  exact List.filter_congr (fun a _ => by cases h : q a <;> simp [h])

theorem mapClean_mapStrip (st : Store) :
    (st.map (fun p => (p.1, stripTr p.2))).map
      (fun p => (p.1, { p.2 with tempsRestant := none })) =
    st.map (fun p => (p.1, stripTr p.2)) := by
  rw [List.map_map]
  exact List.map_congr_left (fun p _ => rfl)

/-- Deprogramming a second time changes nothing: active jobs are untouched by
it, and a non-active job's allocation map already went through the same
filter. -/
theorem mapDeprog_fix (today : Nat) (ch : Store) (data : DataStore) (cur : Nat)
    (hcur : currentWeekIdx? today = some cur) (hids : (ch.map Prod.fst).Nodup) :
    (repartitionAutomatique today ch data).map (fun p => (p.1, deprog cur p.2)) =
      repartitionAutomatique today ch data := by
  obtain ⟨hfst, hrec⟩ := repartition_char today ch data cur hcur hids
  have hlen : (repartitionAutomatique today ch data).length = ch.length := by
    have := congrArg List.length hfst
    simpa using this
  refine List.ext_getElem (by rw [List.length_map]) ?_
  intro i h1 h2
  have hi : i < ch.length := by omega
  obtain ⟨hfr4, hid, htr, hinact⟩ := hrec i hi
  have hgd : ((repartitionAutomatique today ch data).map
      (fun p => (p.1, deprog cur p.2))).getD i default =
      (((repartitionAutomatique today ch data).getD i default).1,
        deprog cur ((repartitionAutomatique today ch data).getD i default).2) :=
    getD_map_pair _ _ i (by omega)
  have hstatus : ((repartitionAutomatique today ch data).getD i default).2.status =
      (ch.getD i default).2.status := by
    rw [frame4, frame4] at hfr4
    exact congrArg (fun q => q.1) hfr4
  have hdep : deprog cur ((repartitionAutomatique today ch data).getD i default).2 =
      ((repartitionAutomatique today ch data).getD i default).2 := by
    by_cases hact : isActive (ch.getD i default).2.status = true
    · exact deprog_active cur _ (by rw [hstatus]; exact hact)
    · have hib : isActive (ch.getD i default).2.status = false := by
        rw [Bool.eq_false_iff]
        exact hact
      have hplan := hinact hib
      rw [deprog, if_pos (by rw [hstatus, hib]; rfl)]
      have hfix : ((repartitionAutomatique today ch data).getD i
          default).2.planification.filter (fun e => !keyIdxGeCur cur e.1) =
          ((repartitionAutomatique today ch data).getD i default).2.planification := by
        rw [hplan]
        exact filter_idem_pred _ _
      rw [hfix]
  have hfinal : ((repartitionAutomatique today ch data).map
      (fun p => (p.1, deprog cur p.2))).getD i default =
      (repartitionAutomatique today ch data).getD i default := by
    rw [hgd, hdep]
  rw [List.getD_eq_getElem _ _ h1, List.getD_eq_getElem _ _ h2] at hfinal
  exact hfinal

/-- C1: reallocation is idempotent.  For every job store with duplicate-free
ids and duplicate-free per-job allocation keys, every availability store with
duplicate-free resource names, and every anchor date for which a current week
exists, running the reallocation twice with unchanged inputs yields exactly
the store produced by running it once. -/
theorem C1_idempotent (today : Nat) (ch : Store) (data : DataStore) (cur : Nat)
    (hcur : currentWeekIdx? today = some cur)
    (hids : (ch.map Prod.fst).Nodup) (hnames : (data.map Prod.fst).Nodup)
    (hpnd : ∀ p ∈ ch, ((p.2.planification.map Prod.fst)).Nodup) :
    repartitionAutomatique today (repartitionAutomatique today ch data) data =
      repartitionAutomatique today ch data := by
  have hrun : ∀ st : Store, repartitionAutomatique today st data =
      (data.foldl (processResource cur ((weeks.drop cur).map weekKeyOf))
        (st.map (fun p => (p.1, deprog cur p.2)))).map
        (fun p => (p.1, { p.2 with tempsRestant := none })) := by
    intro st
    rw [repartitionAutomatique, hcur]
  set planKeys := (weeks.drop cur).map weekKeyOf with hpk
  set out := repartitionAutomatique today ch data with hout
  set st1 := ch.map (fun p => (p.1, deprog cur p.2)) with hst1
  have hnd1 : (st1.map Prod.fst).Nodup := by
    have : st1.map Prod.fst = ch.map Prod.fst := by rw [hst1, List.map_map]; rfl
    rw [this]
    exact hids
  have hpnd1 : ∀ p ∈ st1, ((p.2.planification.map Prod.fst)).Nodup := by
    intro p hp
    rw [hst1] at hp
    obtain ⟨q, hq, rfl⟩ := List.mem_map.mp hp
    dsimp only
    rw [deprog]
    by_cases hact : (!isActive q.2.status) = true
    · rw [if_pos hact]
      dsimp only
      exact ((List.filter_sublist _).map Prod.fst).nodup (hpnd q hq)
    · rw [if_neg hact]
      exact hpnd q hq
  have hB1fix := foldPR_idem cur st1 data hnd1 hnames hpnd1
  rw [← hpk] at hB1fix
  have houtstrip : out = (data.foldl (processResource cur planKeys) st1).map
      (fun p => (p.1, stripTr p.2)) := by
    rw [hout, hrun ch, ← hst1]
    rfl
  rw [hrun out, mapDeprog_fix today ch data cur hcur hids, ← hout]
  rw [houtstrip, foldPR_mapStrip cur planKeys data, hB1fix]
  exact mapClean_mapStrip _

set_option maxRecDepth 100000 in
theorem C1_witness :
    currentWeekIdx? 3253 = some 256 ∧
    repartitionAutomatique 3253
      (repartitionAutomatique 3253
        [("J1", { status := "Nouveau", preparateur := some "A", prepTime := 5000,
                  endDate := (8, 12, 2028), planification := [] })]
        [("A", [((2028, 48), Avail.obj 2400)])])
      [("A", [((2028, 48), Avail.obj 2400)])] =
    repartitionAutomatique 3253
      [("J1", { status := "Nouveau", preparateur := some "A", prepTime := 5000,
                endDate := (8, 12, 2028), planification := [] })]
      [("A", [((2028, 48), Avail.obj 2400)])] :=
  ⟨by decide,
    C1_idempotent 3253
      [("J1", { status := "Nouveau", preparateur := some "A", prepTime := 5000,
                endDate := (8, 12, 2028), planification := [] })]
      [("A", [((2028, 48), Avail.obj 2400)])] 256 (by decide) (by decide) (by decide)
      (by decide)⟩
